import Mathlib

/-!
Verification of the kerning classification engine and subtable partitioner
of `kernFeatureWriter.py` (classes `KernProcessor` and `MakeMeasuredSubtables`),
via a shallow embedding of the Python source into Lean.

Python dictionaries are embedded as association lists with unique keys,
insertion preserving the position of an existing key; Python sets used for
size accounting are embedded as duplicate-free lists; `str.replace`,
substring tests and `str.startswith` are embedded as executable functions
on the character lists underlying `String`.
-/

namespace KFW

/-! ## Python string primitives -/

/-- Occurrence test for Python `pat in s`, on character lists. -/
def subOcc (pat : List Char) : List Char → Bool
  | [] => pat.isEmpty
  | c :: t => pat.isPrefixOf (c :: t) || subOcc pat t

/-- Python `s.replace(pat, rep)`: replace non-overlapping occurrences left
to right, structurally recursive on a fuel that bounds the characters still
to scan (each step consumes at least one character, so `s.length` fuel is
enough).  (The source only calls `replace` with non-empty patterns; for an
empty pattern this embedding returns the string unchanged.) -/
def replOccFuel (pat rep : List Char) : Nat → List Char → List Char
  | 0, s => s
  | fuel + 1, s =>
    match s with
    | [] => []
    | c :: t =>
      if pat ≠ [] ∧ pat.isPrefixOf (c :: t) then
        rep ++ replOccFuel pat rep fuel (List.drop (pat.length - 1) t)
      else
        c :: replOccFuel pat rep fuel t

/-- Python `s.replace(pat, rep)` on character lists. -/
def replOcc (pat rep s : List Char) : List Char := replOccFuel pat rep s.length s

/-- Python `pat in s` on strings. -/
def pyIn (pat s : String) : Bool := subOcc pat.data s.data

/-- Python `s.replace(pat, rep)` on strings. -/
def pyReplace (s pat rep : String) : String := String.mk (replOcc pat.data rep.data s.data)

/-- Python `s.startswith(pat)` on strings. -/
def pyStarts (s pat : String) : Bool := pat.data.isPrefixOf s.data

/-! ## Python dictionaries as association lists -/

/-- First-match lookup, Python `d[k]` / `d.get(k)`. -/
def pyLookup {K V : Type} [DecidableEq K] : List (K × V) → K → Option V
  | [], _ => none
  | kv :: t, x => if kv.1 = x then some kv.2 else pyLookup t x

/-- Python `k in d`. -/
def containsKey {K V : Type} [DecidableEq K] (d : List (K × V)) (k : K) : Bool :=
  (pyLookup d k).isSome

/-- Python `d[k] = v`: overwrite in place if the key exists, else append. -/
def pyInsert {K V : Type} [DecidableEq K] (d : List (K × V)) (k : K) (v : V) :
    List (K × V) :=
  if containsKey d k then d.map (fun kv => if kv.1 = k then (k, v) else kv)
  else d ++ [(k, v)]

/-- Python `del d[k]` (total embedding; the source only deletes present keys). -/
def pyDel {K V : Type} [DecidableEq K] (d : List (K × V)) (k : K) : List (K × V) :=
  d.filter (fun kv => kv.1 ≠ k)

/-- Python `d.keys()`. -/
def pyKeys {K V : Type} (d : List (K × V)) : List K := d.map Prod.fst

/-! ## Data model -/

/-- A kerning item: a glyph name or a group name. -/
abbrev Item := String

/-- A kerning pair. -/
abbrev KPair := Item × Item

/-- A kerning dictionary: pair to integer value. -/
abbrev KDict := List (KPair × Int)

/-- A groups dictionary: group name to glyph list. -/
abbrev GDict := List (String × List String)

/-- Strict lexicographic comparison of character lists by code point, as
Python compares strings. -/
def strLtChars : List Char → List Char → Bool
  | [], [] => false
  | [], _ :: _ => true
  | _ :: _, [] => false
  | a :: s, b :: t =>
    if a.toNat < b.toNat then true
    else if b.toNat < a.toNat then false
    else strLtChars s t

/-- Non-strict lexicographic comparison of character lists. -/
def strLeChars : List Char → List Char → Bool
  | [], _ => true
  | _ :: _, [] => false
  | a :: s, b :: t =>
    if a.toNat < b.toNat then true
    else if b.toNat < a.toNat then false
    else strLeChars s t

/-- Python `a <= b` on strings. -/
def pyStrLe (a b : String) : Bool := strLeChars a.data b.data

/-- Python `a < b` on strings. -/
def pyStrLt (a b : String) : Bool := strLtChars a.data b.data

/-- Python `sorted` on strings (insertion sort; inputs are duplicate-free). -/
def sortStrs (l : List String) : List String :=
  l.insertionSort (fun a b => pyStrLe a b = true)

/-- Lexicographic comparison of pairs, as Python compares tuples of strings. -/
def pairLe (a b : KPair) : Bool :=
  pyStrLt a.1 b.1 || (a.1 = b.1 && pyStrLe a.2 b.2)

/-- Python `sorted` on lists of pairs. -/
def sortPairs (l : List KPair) : List KPair :=
  l.insertionSort (fun a b => pairLe a b = true)

/-- Python `sorted(set(l))` for strings: distinct elements in order. -/
def sortedSet (l : List String) : List String := sortStrs l.dedup

/-! ## Module constants of kernFeatureWriter.py -/

def group_RTL : String := "RTL_KERNING"
def tag_ara : String := "_ARA"
def tag_heb : String := "_HEB"
def tag_RTL : String := "_RTL"
def tag_exception : String := "EXC_"
def tag_ignore : String := ".cxt"

/-! ## KernProcessor predicates -/

/-- `KernProcessor._isGroup`: item starts with `@`, or its part before the
first `.` is `public`. -/
def isGroup (itemName : Item) : Bool :=
  itemName.data.head? = some '@' ||
    decide (itemName.data.takeWhile (fun c => c ≠ '.') = "public".data)

/-- `KernProcessor._isKerningGroup`. -/
def isKerningGroup (groupName : String) : Bool :=
  pyStarts groupName "@MMK_" || pyStarts groupName "public.kern"

/-- `KernProcessor._isRTL`: either item belongs to the RTL reference group,
or either item's name contains an RTL tag. -/
def isRTLPair (referenceGroups : GDict) (pair : KPair) : Bool :=
  let RTLGlyphs := (pyLookup referenceGroups group_RTL).getD []
  (pair.1 ∈ RTLGlyphs || pair.2 ∈ RTLGlyphs) ||
    [tag_ara, tag_heb, tag_RTL].any (fun tag => pyIn tag pair.1 || pyIn tag pair.2)

/-- `KernProcessor._isRTLGroup`. -/
def isRTLGroup (groupName : String) : Bool :=
  [tag_ara, tag_heb, tag_RTL].any (fun tag => pyIn tag groupName)

/-! ## Normalizer -/

/-- `KernProcessor._remap_group_name`. -/
def remapGroupName (group_name : String) : String :=
  if pyIn "public.kern1." group_name then
    let stripped_name := pyReplace group_name "public.kern1." ""
    if pyStarts stripped_name "@MMK_L_" then stripped_name
    else pyReplace group_name "public.kern1." "@MMK_L_"
  else if pyIn "public.kern2." group_name then
    let stripped_name := pyReplace group_name "public.kern2." ""
    if pyStarts stripped_name "@MMK_R_" then stripped_name
    else pyReplace group_name "public.kern2." "@MMK_R_"
  else group_name

/-- `KernProcessor._remap_groups`. -/
def remapGroups (groups : GDict) : GDict :=
  groups.foldl (fun acc gv => pyInsert acc (remapGroupName gv.1) gv.2) []

/-- `KernProcessor._remap_kerning`. -/
def remapKerning (kerning : KDict) : KDict :=
  kerning.foldl
    (fun acc pv => pyInsert acc (remapGroupName pv.1.1, remapGroupName pv.1.2) pv.2) []

/-- `KernProcessor.sanitize_kerning`: drop pairs referencing groups absent
from the groups dict. -/
def sanitizeKerning (groups : GDict) (kerning : KDict) : KDict :=
  let badGroups :=
    ((pyKeys kerning).flatMap (fun p => [p.1, p.2])).filter
      (fun it => isGroup it && !(it ∈ pyKeys groups))
  kerning.filter (fun pv => !(pv.1.1 ∈ badGroups || pv.1.2 ∈ badGroups))

/-- `KernProcessor._get_used_groups`. -/
def usedGroupNames (kerning : KDict) : List String :=
  sortedSet ((pyKeys kerning).foldl
    (fun acc p => acc ++ (if isGroup p.1 then [p.1] else [])
      ++ (if isGroup p.2 then [p.2] else [])) [])

/-- The `used_groups` dict built in `KernProcessor.__init__` (sanitization
guarantees every used name is present in `groups`). -/
def usedGroups (groups : GDict) (kerning : KDict) : GDict :=
  (usedGroupNames kerning).map (fun n => (n, (pyLookup groups n).getD []))

/-- The `singleGroups` dict of `KernProcessor._dissolveSingleGroups`. -/
def singleGroupsOf (groups : GDict) : GDict :=
  groups.filter (fun gv => gv.2.length = 1 && !isRTLGroup gv.1)

/-- `singleGroups.get(item, [item])[0]`: the sole member if `item` is a
dissolvable group, else the item itself. -/
def dissolveTarget (singleGroups : GDict) (it : Item) : Item :=
  (((pyLookup singleGroups it).getD [it]).headD it)

/-- The pair rewrite performed by `KernProcessor._dissolveSingleGroups`. -/
def dissolvePair (singleGroups : GDict) (p : KPair) : KPair :=
  (dissolveTarget singleGroups p.1, dissolveTarget singleGroups p.2)

/-- `KernProcessor._dissolveSingleGroups`. -/
def dissolveSingleGroups (groups : GDict) (kerning : KDict) : GDict × KDict :=
  let singleGroups := singleGroupsOf groups
  if singleGroups ≠ [] then
    let dissolvedKerning := kerning.foldl
      (fun acc pv => pyInsert acc (dissolvePair singleGroups pv.1) pv.2) []
    let remainingGroups := groups.filter (fun gv => !containsKey singleGroups gv.1)
    (remainingGroups, dissolvedKerning)
  else (groups, kerning)

/-! ## Classifier state and phases (`KernProcessor.__init__` / `_findExceptions`) -/

/-- Python runtime errors the classifier can raise. -/
inductive PyError where
  | keyError
  | attributeError
deriving DecidableEq, Repr

/-- Read an optional value, raising the given error when absent
(`d[k]` raising `KeyError`, `self.attr` raising `AttributeError`). -/
def ofOpt {α : Type} (o : Option α) (e : PyError) : Except PyError α :=
  match o with
  | some a => .ok a
  | none => .error e

/-- Error-propagating left fold, for the classifier's loops. -/
def exFoldl {σ α : Type} (f : σ → α → Except PyError σ) : σ → List α → Except PyError σ
  | s, [] => .ok s
  | s, a :: l =>
    match f s a with
    | .error e => .error e
    | .ok s' => exFoldl f s' l

/-- The attribute state of a `KernProcessor` instance. -/
structure KPState where
  glyph_glyph : KDict := []
  glyph_glyph_exceptions : KDict := []
  glyph_group : KDict := []
  glyph_group_exceptions : KDict := []
  group_glyph_exceptions : KDict := []
  group_group : KDict := []
  predefined_exceptions : KDict := []
  rtl_glyph_glyph : KDict := []
  rtl_glyph_glyph_exceptions : KDict := []
  rtl_glyph_group : KDict := []
  rtl_glyph_group_exceptions : KDict := []
  rtl_group_glyph_exceptions : KDict := []
  rtl_group_group : KDict := []
  rtl_predefined_exceptions : KDict := []
  pairs_unprocessed : List KPair := []
  pairs_processed : List KPair := []
  kerning : KDict := []
  groups : GDict := []
  reference_groups : GDict := []
  grouped_left : Option (List String) := none
  grouped_right : Option (List String) := none
  group_order : List String := []
  explodedPairList : List KPair := []
  RTLexplodedPairList : List KPair := []
deriving DecidableEq, Repr

/-- `KernProcessor._explode`: all combinations, `itertools.product` order. -/
def explode (leftGlyphList rightGlyphList : List String) : List KPair :=
  leftGlyphList.flatMap (fun a => rightGlyphList.map (fun b => (a, b)))

/-- `KernProcessor._getAllGroupedGlyphs(side='left')`, over the remapped
groups and kerning. -/
def allGroupedLeft (groups : GDict) (kerning : KDict) : List String :=
  sortedSet ((pyKeys kerning).foldl
    (fun acc p =>
      if isGroup p.1 && containsKey groups p.1 then acc ++ (pyLookup groups p.1).getD []
      else acc) [])

/-- `KernProcessor._getAllGroupedGlyphs(side='right')`. -/
def allGroupedRight (groups : GDict) (kerning : KDict) : List String :=
  sortedSet ((pyKeys kerning).foldl
    (fun acc p =>
      if isGroup p.2 && containsKey groups p.2 then acc ++ (pyLookup groups p.2).getD []
      else acc) [])

/-- One step of the first loop of `_findExceptions`: drop ignore-tagged
pairs, move predefined-exception pairs out of the working kerning.
The value read is the snapshot value (the loop never rewrites values). -/
def stripStep (acc : KDict × KDict) (pv : KPair × Int) : KDict × KDict :=
  if pyIn tag_ignore pv.1.1 then (pyDel acc.1 pv.1, acc.2)
  else if pyIn tag_exception pv.1.1 || pyIn tag_exception pv.1.2 then
    (pyDel acc.1 pv.1, pyInsert acc.2 pv.1 pv.2)
  else acc

/-- The first loop of `_findExceptions`, iterating the key snapshot in
reverse; returns (surviving kerning, predefined_exceptions). -/
def stripFold (kerning : KDict) : KDict × KDict :=
  kerning.reverse.foldl stripStep (kerning, [])

/-- The `glyph_2_glyph` list of `_findExceptions`. -/
def g2gList (kerning : KDict) : List KPair :=
  sortPairs ((pyKeys kerning).filter (fun p => !isGroup p.1 && !isGroup p.2))

/-- The `glyph_2_group` list of `_findExceptions`. -/
def g2grList (kerning : KDict) : List KPair :=
  sortPairs ((pyKeys kerning).filter (fun p => !isGroup p.1 && isGroup p.2))

/-- The `group_2_item` list of `_findExceptions`. -/
def gr2iList (kerning : KDict) : List KPair :=
  sortPairs ((pyKeys kerning).filter (fun p => isGroup p.1))

/-- Inner member loop of the glyph-to-group handling: the loop variable
`value` is rebound whenever a member pair is found (carried in the second
component). -/
def memberStep (glyph : Item) (g2g : List KPair) (rtl : Bool)
    (acc : KPState × Int) (groupedGlyph : String) : Except PyError (KPState × Int) :=
  if (glyph, groupedGlyph) ∈ g2g then do
    let v ← ofOpt (pyLookup acc.1.kerning (glyph, groupedGlyph)) .keyError
    if rtl then
      let d := pyInsert acc.1.rtl_glyph_glyph_exceptions (glyph, groupedGlyph) v
      pure ({ acc.1 with rtl_glyph_glyph_exceptions := d }, v)
    else
      let d := pyInsert acc.1.glyph_glyph_exceptions (glyph, groupedGlyph) v
      pure ({ acc.1 with glyph_glyph_exceptions := d }, v)
  else pure acc

/-- One glyph-to-group pair of `_findExceptions` (the `glyph_2_group` loop).
The member loop has no `break`, so its `else` block always runs, using the
possibly rebound `value`. -/
def phaseCStep (g2g : List KPair) (s : KPState) (p : KPair) : Except PyError KPState := do
  let value ← ofOpt (pyLookup s.kerning p) .keyError
  let groupList ← ofOpt (pyLookup s.groups p.2) .keyError
  let isRTLpair := isRTLPair s.reference_groups p
  let gl ← ofOpt s.grouped_left .attributeError
  if p.1 ∈ gl then
    if isRTLpair then
      pure { s with rtl_glyph_group_exceptions := pyInsert s.rtl_glyph_group_exceptions p value,
                    pairs_processed := s.pairs_processed ++ [p] }
    else
      pure { s with glyph_group_exceptions := pyInsert s.glyph_group_exceptions p value,
                    pairs_processed := s.pairs_processed ++ [p] }
  else do
    let r ← exFoldl (memberStep p.1 g2g isRTLpair) (s, value) groupList
    let s1 := r.1
    if r.2 = 0 then
      pure { s1 with pairs_unprocessed := s1.pairs_unprocessed ++ [p] }
    else if isRTLpair then
      pure { s1 with rtl_glyph_group := pyInsert s1.rtl_glyph_group p r.2,
                     pairs_processed := s1.pairs_processed ++ [p] }
    else
      pure { s1 with glyph_group := pyInsert s1.glyph_group p r.2,
                     pairs_processed := s1.pairs_processed ++ [p] }

/-- Shared tail of the group-to-item handling: zero-value suppression, then
bucket insert and cross-product recording. -/
def phaseDCont (s : KPState) (p : KPair) (value : Int) (isRTLpair : Bool)
    (lGlyphs rGlyphs : List String) : KPState :=
  if value = 0 then { s with pairs_unprocessed := s.pairs_unprocessed ++ [p] }
  else if isRTLpair then
    { s with rtl_group_group := pyInsert s.rtl_group_group p value,
             RTLexplodedPairList := s.RTLexplodedPairList ++ explode lGlyphs rGlyphs,
             pairs_processed := s.pairs_processed ++ [p] }
  else
    { s with group_group := pyInsert s.group_group p value,
             explodedPairList := s.explodedPairList ++ explode lGlyphs rGlyphs,
             pairs_processed := s.pairs_processed ++ [p] }

/-- One group-to-item pair of `_findExceptions` (the `group_2_item` loop).
In the RTL group-to-glyph exception branch the source appends to
`pairs_processed` only on the LTR side. -/
def phaseDStep (s : KPState) (p : KPair) : Except PyError KPState := do
  let value ← ofOpt (pyLookup s.kerning p) .keyError
  let isRTLpair := isRTLPair s.reference_groups p
  let lGlyphs ← ofOpt (pyLookup s.groups p.1) .keyError
  if isGroup p.2 then do
    let rGlyphs ← ofOpt (pyLookup s.groups p.2) .keyError
    pure (phaseDCont s p value isRTLpair lGlyphs rGlyphs)
  else do
    let gr ← ofOpt s.grouped_right .attributeError
    if p.2 ∈ gr then
      if isRTLpair then
        pure { s with rtl_group_glyph_exceptions := pyInsert s.rtl_group_glyph_exceptions p value }
      else
        pure { s with group_glyph_exceptions := pyInsert s.group_glyph_exceptions p value,
                      pairs_processed := s.pairs_processed ++ [p] }
    else
      pure (phaseDCont s p value isRTLpair lGlyphs [p.2])

/-- Intersection of the exploded cross products with `glyph_2_glyph`,
reclassified into the glyph-to-glyph exception dicts (Python iterates the
intersection as a set; the embedding iterates distinct elements in order). -/
def phaseE (g2g : List KPair) (s : KPState) : Except PyError KPState := do
  let exceptionPairs := s.explodedPairList.dedup.filter (fun p => p ∈ g2g)
  let rtlExceptionPairs := s.RTLexplodedPairList.dedup.filter (fun p => p ∈ g2g)
  let s1 ← exFoldl (fun st p => do
      let v ← ofOpt (pyLookup st.kerning p) .keyError
      pure { st with glyph_glyph_exceptions := pyInsert st.glyph_glyph_exceptions p v })
    s exceptionPairs
  exFoldl (fun st p => do
      let v ← ofOpt (pyLookup st.kerning p) .keyError
      pure { st with rtl_glyph_glyph_exceptions := pyInsert st.rtl_glyph_glyph_exceptions p v })
    s1 rtlExceptionPairs

/-- The branch body of the final glyph-to-glyph loop: exception routing,
or plain-bucket insert when the pair is not already an exception. -/
def phaseFBranch (s : KPState) (p : KPair) (value : Int) (isRTLpair : Bool)
    (gl gr : List String) : Except PyError KPState :=
  if p.1 ∈ gl || p.2 ∈ gr then
    if isRTLpair then
      pure { s with rtl_glyph_glyph_exceptions := pyInsert s.rtl_glyph_glyph_exceptions p value }
    else
      pure { s with glyph_glyph_exceptions := pyInsert s.glyph_glyph_exceptions p value }
  else
    if !containsKey s.glyph_glyph_exceptions p && !containsKey s.rtl_glyph_glyph_exceptions p then do
      let v2 ← ofOpt (pyLookup s.kerning p) .keyError
      if isRTLpair then
        pure { s with rtl_glyph_glyph := pyInsert s.rtl_glyph_glyph p v2 }
      else
        pure { s with glyph_glyph := pyInsert s.glyph_glyph p v2 }
    else pure s

/-- One glyph-to-glyph pair of the final loop of `_findExceptions`.
Python's `any([glyph_1 in self.grouped_left, glyph_2 in self.grouped_right])`
reads both attributes before branching. -/
def phaseFStep (s : KPState) (p : KPair) : Except PyError KPState := do
  let value ← ofOpt (pyLookup s.kerning p) .keyError
  let isRTLpair := isRTLPair s.reference_groups p
  let gl ← ofOpt s.grouped_left .attributeError
  let gr ← ofOpt s.grouped_right .attributeError
  let s1 ← phaseFBranch s p value isRTLpair gl gr
  pure { s1 with pairs_processed := s1.pairs_processed ++ [p] }

/-- `KernProcessor._findExceptions`. -/
def findExceptions (s : KPState) : Except PyError KPState := do
  let stripped := stripFold s.kerning
  let s0 := { s with kerning := stripped.1, predefined_exceptions := stripped.2 }
  let g2g := g2gList s0.kerning
  let s1 ← exFoldl (phaseCStep g2g) s0 (g2grList s0.kerning)
  let s2 ← exFoldl phaseDStep s1 (gr2iList s0.kerning)
  let s3 ← phaseE g2g s2
  exFoldl phaseFStep s3 g2g

/-- `reference_groups`: input groups that are not kerning groups. -/
def referenceGroupsOf (groups : GDict) : GDict :=
  groups.filter (fun gv => !isKerningGroup gv.1)

/-- The (groups, kerning) pair after the optional dissolve step of
`KernProcessor.__init__`. -/
def kpPostDissolve (groups : GDict) (kerning : KDict) (optionDissolve : Bool) :
    GDict × KDict :=
  let sanitized := sanitizeKerning groups kerning
  let used := usedGroups groups sanitized
  if used ≠ [] ∧ optionDissolve then dissolveSingleGroups used sanitized
  else (used, sanitized)

/-- `self.groups` after remapping. -/
def kpGroups (groups : GDict) (kerning : KDict) (optionDissolve : Bool) : GDict :=
  remapGroups (kpPostDissolve groups kerning optionDissolve).1

/-- `self.kerning` after remapping: the working kerning entering
`_findExceptions`. -/
def kpWorking (groups : GDict) (kerning : KDict) (optionDissolve : Bool) : KDict :=
  remapKerning (kpPostDissolve groups kerning optionDissolve).2

/-- `KernProcessor.__init__` on (groups, kerning, option_dissolve); the
grouped-glyph attributes are set only when at least one group is used. -/
def kernProcessor (groups : GDict) (kerning : KDict) (optionDissolve : Bool) :
    Except PyError KPState := do
  let sanitized := sanitizeKerning groups kerning
  let used := usedGroups groups sanitized
  let groups' := kpGroups groups kerning optionDissolve
  let kerning' := kpWorking groups kerning optionDissolve
  let s0 : KPState :=
    { kerning := kerning'
      groups := groups'
      reference_groups := referenceGroupsOf groups
      grouped_left := if used ≠ [] then some (allGroupedLeft groups' kerning') else none
      grouped_right := if used ≠ [] then some (allGroupedRight groups' kerning') else none }
  let s1 ← findExceptions s0
  if s1.kerning ≠ [] then
    pure { s1 with group_order := sortStrs (pyKeys s1.groups) }
  else pure s1

/-- The mismatch condition tested by `KernProcessor._sanityCheck`. -/
def sanityMismatch (s : KPState) : Bool :=
  s.kerning.length ≠ s.pairs_processed.length + s.pairs_unprocessed.length

/-- The classifier phases never touch these attributes after the strip
loop: working kerning, groups, reference groups, grouped-glyph sets and the
two predefined-exception buckets. -/
def CoreEq (s s' : KPState) : Prop :=
  s'.kerning = s.kerning ∧ s'.groups = s.groups ∧
  s'.reference_groups = s.reference_groups ∧
  s'.grouped_left = s.grouped_left ∧ s'.grouped_right = s.grouped_right ∧
  s'.predefined_exceptions = s.predefined_exceptions ∧
  s'.rtl_predefined_exceptions = s.rtl_predefined_exceptions

/-- A pair is recorded as a glyph-to-glyph exception, on either
directionality. -/
def hasGGExc (s : KPState) (p : KPair) : Prop :=
  containsKey s.glyph_glyph_exceptions p = true ∨
    containsKey s.rtl_glyph_glyph_exceptions p = true

/-- The glyph-to-glyph exception dicts only ever grow during
classification. -/
def GGMono (s s' : KPState) : Prop :=
  (∀ q, containsKey s.glyph_glyph_exceptions q = true →
    containsKey s'.glyph_glyph_exceptions q = true) ∧
  (∀ q, containsKey s.rtl_glyph_glyph_exceptions q = true →
    containsKey s'.rtl_glyph_glyph_exceptions q = true)

/-! ## Subtable partitioner (`MakeMeasuredSubtables`) -/

/-- Python set represented as a duplicate-free list: add one element. -/
def setAdd (s : List String) (a : String) : List String :=
  if a ∈ s then s else s ++ [a]

/-- Python `set.update(iterable)`. -/
def setUpdate (s : List String) (l : List String) : List String :=
  l.foldl setAdd s

/-- `MakeMeasuredSubtables._getNumberOfKernedGlyphs`. -/
def numberOfKernedGlyphs (kerning : KDict) (groups : GDict) : Nat :=
  (((pyKeys kerning).flatMap (fun p => (pyLookup groups p.1).getD [p.1]))
    ++ ((pyKeys kerning).flatMap (fun p => (pyLookup groups p.2).getD [p.2]))).dedup.length

/-- The running accumulators of the measuring loop: expanded member glyphs
and used identities per side, plus the size variables, which persist across
iterations exactly as the Python local variables do. -/
structure MeasureAcc where
  groupedGlyphsLeft : List String := []
  groupedGlyphsRight : List String := []
  usedGroupsLeft : List String := []
  usedGroupsRight : List String := []
  subtableMetadataSize : Nat := 0
  subtable_size : Nat := 0
deriving DecidableEq, Repr

/-- Inner loop of the measuring pass: absorb one pair of the current left
item and recompute the class and matrix size estimates. -/
def absorbPair (groups : GDict) (coverageTableSize : Nat) (a : MeasureAcc)
    (pr : KPair) : MeasureAcc :=
  let gL := setUpdate a.groupedGlyphsLeft ((pyLookup groups pr.1).getD [pr.1])
  let gR := setUpdate a.groupedGlyphsRight ((pyLookup groups pr.2).getD [pr.2])
  let uL := setAdd a.usedGroupsLeft pr.1
  let uR := setAdd a.usedGroupsRight pr.2
  let leftClassSize := 6 + 2 * gL.length
  let rightClassSize := 6 + 2 * gR.length
  { groupedGlyphsLeft := gL
    groupedGlyphsRight := gR
    usedGroupsLeft := uL
    usedGroupsRight := uR
    subtableMetadataSize := coverageTableSize + leftClassSize + rightClassSize
    subtable_size := 16 + uL.length * uR.length * 2 }

/-- State of the outer measuring loop. -/
structure PartAcc where
  measuredSubtables : List (List Item) := []
  subtable : List Item := []
  acc : MeasureAcc := {}
deriving DecidableEq, Repr

/-- Absorb all pairs of one left item into the measure accumulators
(the inner loop `for left, right in itemPair`). -/
def partAbsorb (kernDict : KDict) (groups : GDict) (coverageTableSize : Nat)
    (macc : MeasureAcc) (item : Item) : MeasureAcc :=
  ((pyKeys kernDict).filter (fun p => p.1 = item)).foldl
    (absorbPair groups coverageTableSize) macc

/-- The loop's size test after absorbing one left item:
`subtableMetadataSize + subtable_size < maxSubtableSize`. -/
abbrev partFits (kernDict : KDict) (groups : GDict) (coverageTableSize : Nat)
    (maxSubtableSize : Int) (macc : MeasureAcc) (item : Item) : Prop :=
  (((partAbsorb kernDict groups coverageTableSize macc item).subtableMetadataSize +
    (partAbsorb kernDict groups coverageTableSize macc item).subtable_size : Nat) : Int)
      < maxSubtableSize

/-- One left item of the measuring loop: absorb its pairs, then either
keep it in the open subtable or close the subtable and start a new one
(resetting the four set accumulators, but not the size variables). -/
def partStep (kernDict : KDict) (groups : GDict) (coverageTableSize : Nat)
    (maxSubtableSize : Int) (st : PartAcc) (item : Item) : PartAcc :=
  if partFits kernDict groups coverageTableSize maxSubtableSize st.acc item then
    { st with subtable := st.subtable ++ [item],
              acc := partAbsorb kernDict groups coverageTableSize st.acc item }
  else
    { measuredSubtables := st.measuredSubtables ++ [st.subtable]
      subtable := [item]
      acc := { partAbsorb kernDict groups coverageTableSize st.acc item with
                 groupedGlyphsLeft := [], groupedGlyphsRight := [],
                 usedGroupsLeft := [], usedGroupsRight := [] } }

/-- The `leftItems` of the measuring pass: distinct left items, sorted. -/
def leftItemsOf (kernDict : KDict) : List Item :=
  sortedSet ((pyKeys kernDict).map Prod.fst)

/-- The measured subtables (lists of left items), including the final open
subtable when non-empty. -/
def measuredSubtablesOf (kernDict : KDict) (groups : GDict) (maxSubtableSize : Int) :
    List (List Item) :=
  let coverageTableSize := 2 + 2 * numberOfKernedGlyphs kernDict groups
  let fin := (leftItemsOf kernDict).foldl
    (partStep kernDict groups coverageTableSize maxSubtableSize) {}
  fin.measuredSubtables ++ (if fin.subtable ≠ [] then [fin.subtable] else [])

/-- A subtable dictionary; values come from `kerning.get(pair)`, so an
absent pair yields the `None` placeholder. -/
abbrev SubDict := List (KPair × Option Int)

/-- Build one subtable dict from its left-item list. -/
def collectSubtable (kernDict : KDict) (kerning : KDict) (leftItemList : List Item) :
    SubDict :=
  leftItemList.foldl
    (fun d leftItem =>
      ((pyKeys kernDict).filter (fun p => p.1 = leftItem)).foldl
        (fun d p => pyInsert d p (pyLookup kerning p)) d) []

/-- `MakeMeasuredSubtables(kernDict, kerning, groups, maxSubtableSize).subtables`.
Note the Python constructor reads the two size variables after the inner
loop; `coverageTableSize` is computed once bucket-wide. -/
def msSubtables (kernDict : KDict) (kerning : KDict) (groups : GDict)
    (maxSubtableSize : Int) : List SubDict :=
  (measuredSubtablesOf kernDict groups maxSubtableSize).map
    (collectSubtable kernDict kerning)

/-- The estimated cost of the first left item alone: what the measuring
loop compares against `maxSubtableSize` on its first iteration. -/
def firstItemCost (kernDict : KDict) (groups : GDict) : Nat :=
  let a := partAbsorb kernDict groups (2 + 2 * numberOfKernedGlyphs kernDict groups)
    {} ((leftItemsOf kernDict).headD "")
  a.subtableMetadataSize + a.subtable_size

/-- The trimming decision of `run._dict2pos` for one pair: in a
multiple-master font nothing is trimmed, `enum` lines are always written,
otherwise a pair is trimmed when `abs(value) < minimum`. -/
def dict2posKept (value : Int) (minimum : Int) (enum MM : Bool) : Bool :=
  if MM then true
  else if enum then true
  else decide (|value| ≥ minimum)

/-! ## Association-list lemmas -/

section DictLemmas

variable {K V : Type} [DecidableEq K]

theorem pyLookup_append (d1 d2 : List (K × V)) (k : K) :
    pyLookup (d1 ++ d2) k =
      match pyLookup d1 k with
      | some v => some v
      | none => pyLookup d2 k := by
  induction d1 with
  | nil => simp [pyLookup]
  | cons kv t ih =>
    by_cases h : kv.1 = k <;> simp [pyLookup, h, ih]

theorem pyLookup_map_overwrite (d : List (K × V)) (k : K) (v : V) :
    pyLookup (d.map (fun kv => if kv.1 = k then (k, v) else kv)) k =
      if containsKey d k then some v else none := by
  induction d with
  | nil => simp [pyLookup, containsKey]
  | cons kv t ih =>
    by_cases h : kv.1 = k
    · simp [pyLookup, containsKey, h]
    · simp [pyLookup, containsKey, h, ih]

theorem pyLookup_map_overwrite_ne (d : List (K × V)) (k k' : K) (v : V) (h : k' ≠ k) :
    pyLookup (d.map (fun kv => if kv.1 = k then (k, v) else kv)) k' = pyLookup d k' := by
  induction d with
  | nil => rfl
  | cons kv t ih =>
    by_cases he : kv.1 = k
    · have h1 : kv.1 ≠ k' := by rw [he]; exact fun hh => h hh.symm
      have h2 : k ≠ k' := fun hh => h hh.symm
      simp [pyLookup, he, h1, h2, ih]
    · by_cases he' : kv.1 = k' <;> simp [pyLookup, he, he', h, ih]

theorem pyLookup_pyInsert_self (d : List (K × V)) (k : K) (v : V) :
    pyLookup (pyInsert d k v) k = some v := by
  cases hc : containsKey d k with
  | true => simp [pyInsert, hc, pyLookup_map_overwrite]
  | false =>
    have hnone : pyLookup d k = none := by
      cases hl : pyLookup d k with
      | none => rfl
      | some w => simp [containsKey, hl] at hc
    simp [pyInsert, hc, pyLookup_append, hnone, pyLookup]

theorem pyLookup_pyInsert_ne (d : List (K × V)) (k k' : K) (v : V) (h : k' ≠ k) :
    pyLookup (pyInsert d k v) k' = pyLookup d k' := by
  cases hc : containsKey d k with
  | true => simp [pyInsert, hc, pyLookup_map_overwrite_ne d k k' v h]
  | false =>
    rw [pyInsert, hc]
    simp only [Bool.false_eq_true, if_false]
    rw [pyLookup_append]
    cases hl : pyLookup d k' with
    | some w => rfl
    | none => simp [pyLookup, h.symm]

theorem pyLookup_pyDel_self (d : List (K × V)) (k : K) :
    pyLookup (pyDel d k) k = none := by
  simp only [pyDel, ne_eq, decide_not]
  induction d with
  | nil => rfl
  | cons kv t ih =>
    rw [List.filter_cons]
    by_cases he : kv.1 = k
    · simp [he, ih]
    · simp [he, pyLookup, ih]

theorem pyLookup_pyDel_ne (d : List (K × V)) (k k' : K) (h : k' ≠ k) :
    pyLookup (pyDel d k) k' = pyLookup d k' := by
  simp only [pyDel, ne_eq, decide_not]
  induction d with
  | nil => rfl
  | cons kv t ih =>
    rw [List.filter_cons]
    by_cases he : kv.1 = k
    · have h1 : kv.1 ≠ k' := by rw [he]; exact h.symm
      simp [he, pyLookup, h1, h.symm, ih]
    · by_cases he' : kv.1 = k' <;> simp [he, he', pyLookup, h, h.symm, ih]

theorem containsKey_pyInsert_mono (d : List (K × V)) (k k' : K) (v : V)
    (h : containsKey d k' = true) : containsKey (pyInsert d k v) k' = true := by
  by_cases he : k' = k
  · subst he
    simp [containsKey, pyLookup_pyInsert_self]
  · simp [containsKey, pyLookup_pyInsert_ne d k k' v he]
    simpa [containsKey] using h

theorem keys_cons (kv : K × V) (t : List (K × V)) :
    pyKeys (kv :: t) = kv.1 :: pyKeys t := rfl

theorem mem_keys_of_lookup {d : List (K × V)} {k : K} {v : V}
    (h : pyLookup d k = some v) : k ∈ pyKeys d := by
  induction d with
  | nil => simp [pyLookup] at h
  | cons kv t ih =>
    rw [keys_cons]
    by_cases he : kv.1 = k
    · exact he ▸ List.mem_cons_self _ _
    · simp only [pyLookup, he, if_false] at h
      exact List.mem_cons_of_mem _ (ih h)

theorem lookup_isSome_of_mem_keys {d : List (K × V)} {k : K}
    (h : k ∈ pyKeys d) : ∃ v, pyLookup d k = some v := by
  induction d with
  | nil => simp [pyKeys] at h
  | cons kv t ih =>
    by_cases he : kv.1 = k
    · exact ⟨kv.2, by simp [pyLookup, he]⟩
    · rw [keys_cons] at h
      rcases List.mem_cons.mp h with h1 | h1
      · exact absurd h1.symm he
      · rcases ih h1 with ⟨v, hv⟩
        exact ⟨v, by simp [pyLookup, he, hv]⟩

theorem lookup_of_mem_nodup {d : List (K × V)} {k : K} {v : V}
    (hnd : (pyKeys d).Nodup) (h : (k, v) ∈ d) : pyLookup d k = some v := by
  induction d with
  | nil => simp at h
  | cons kv t ih =>
    rw [keys_cons] at hnd
    rcases List.mem_cons.mp h with h1 | h1
    · simp [← h1, pyLookup]
    · have hk : k ∈ pyKeys t := by
        simpa [pyKeys] using List.mem_map_of_mem Prod.fst h1
      have hne : kv.1 ≠ k := fun he => (List.nodup_cons.mp hnd).1 (he ▸ hk)
      simp [pyLookup, hne, ih (List.nodup_cons.mp hnd).2 h1]

theorem mem_of_lookup {d : List (K × V)} {k : K} {v : V}
    (h : pyLookup d k = some v) : (k, v) ∈ d := by
  induction d with
  | nil => simp [pyLookup] at h
  | cons kv t ih =>
    by_cases he : kv.1 = k
    · simp only [pyLookup, he, if_true] at h
      have : kv = (k, v) := by
        cases kv with
        | mk a b =>
          simp only at he
          simp only [Option.some.injEq] at h
          rw [he, h]
      rw [← this]
      exact List.mem_cons_self _ _
    · simp only [pyLookup, he, if_false] at h
      exact List.mem_cons_of_mem _ (ih h)

theorem nodupKeys_pyInsert (d : List (K × V)) (k : K) (v : V)
    (h : (pyKeys d).Nodup) : (pyKeys (pyInsert d k v)).Nodup := by
  cases hc : containsKey d k with
  | true =>
    rw [pyInsert, hc]
    simp only [if_true]
    have heq : pyKeys (d.map (fun kv => if kv.1 = k then (k, v) else kv)) = pyKeys d := by
      simp only [pyKeys, List.map_map]
      apply List.map_congr_left
      intro kv _
      by_cases he : kv.1 = k <;> simp [he]
    rw [heq]; exact h
  | false =>
    rw [pyInsert, hc]
    simp only [Bool.false_eq_true, if_false]
    have hk : k ∉ pyKeys d := by
      intro hmem
      rcases lookup_isSome_of_mem_keys hmem with ⟨w, hw⟩
      simp [containsKey, hw] at hc
    have heq : pyKeys (d ++ [(k, v)]) = pyKeys d ++ [k] := by
      simp [pyKeys]
    rw [heq, List.nodup_append]
    exact ⟨h, List.nodup_singleton k, by
      intro a ha hb
      rw [List.mem_singleton] at hb
      exact hk (hb ▸ ha)⟩

theorem nodupKeys_pyDel (d : List (K × V)) (k : K)
    (h : (pyKeys d).Nodup) : (pyKeys (pyDel d k)).Nodup := by
  have hs : List.Sublist (pyKeys (pyDel d k)) (pyKeys d) :=
    List.Sublist.map Prod.fst (List.filter_sublist d)
  exact hs.nodup h

theorem nodupKeys_foldl_pyInsert {α : Type} (f : α → K) (g : α → V) (l : List α)
    (d : List (K × V)) (h : (pyKeys d).Nodup) :
    (pyKeys (l.foldl (fun acc x => pyInsert acc (f x) (g x)) d)).Nodup := by
  induction l generalizing d with
  | nil => simpa using h
  | cons x t ih => exact ih _ (nodupKeys_pyInsert _ _ _ h)

end DictLemmas

/-! ## Fold lemmas -/

theorem exFoldl_append {σ α : Type} (f : σ → α → Except PyError σ) (s : σ)
    (l1 l2 : List α) :
    exFoldl f s (l1 ++ l2) =
      match exFoldl f s l1 with
      | .ok s' => exFoldl f s' l2
      | .error e => .error e := by
  induction l1 generalizing s with
  | nil => simp [exFoldl]
  | cons a t ih =>
    rw [List.cons_append]
    rw [exFoldl, exFoldl]
    cases f s a with
    | error e => rfl
    | ok s' => exact ih s'

theorem exFoldl_ok_append {σ α : Type} {f : σ → α → Except PyError σ} {s s' : σ}
    {l1 l2 : List α} (h : exFoldl f s (l1 ++ l2) = .ok s') :
    ∃ m, exFoldl f s l1 = .ok m ∧ exFoldl f m l2 = .ok s' := by
  rw [exFoldl_append] at h
  cases hm : exFoldl f s l1 with
  | error e => rw [hm] at h; exact absurd h (by simp)
  | ok m => rw [hm] at h; exact ⟨m, rfl, h⟩

theorem exFoldl_ok_cons {σ α : Type} {f : σ → α → Except PyError σ} {s s' : σ}
    {a : α} {l : List α} (h : exFoldl f s (a :: l) = .ok s') :
    ∃ m, f s a = .ok m ∧ exFoldl f m l = .ok s' := by
  rw [exFoldl] at h
  cases hm : f s a with
  | error e => rw [hm] at h; exact absurd h (by simp)
  | ok m => rw [hm] at h; exact ⟨m, rfl, h⟩

theorem exFoldl_inv {σ α : Type} {f : σ → α → Except PyError σ} {P : σ → Prop}
    (hstep : ∀ s a s', f s a = .ok s' → P s → P s') :
    ∀ {l : List α} {s s' : σ}, exFoldl f s l = .ok s' → P s → P s'
  | [], s, s', h, hp => by
    rw [exFoldl] at h
    cases h
    exact hp
  | a :: l, s, s', h, hp => by
    rcases exFoldl_ok_cons h with ⟨m, hm, hrest⟩
    exact exFoldl_inv hstep hrest (hstep s a m hm hp)

theorem pyInsert_fresh {K V : Type} [DecidableEq K] {d : List (K × V)} {k : K} (v : V)
    (h : containsKey d k = false) : pyInsert d k v = d ++ [(k, v)] := by
  rw [pyInsert, h]
  simp

theorem containsKey_append {K V : Type} [DecidableEq K] (d1 d2 : List (K × V)) (k : K) :
    containsKey (d1 ++ d2) k = (containsKey d1 k || containsKey d2 k) := by
  rw [containsKey, pyLookup_append]
  cases h : pyLookup d1 k with
  | some v => simp [containsKey, h]
  | none => simp [containsKey, h]

theorem foldl_pyInsert_eq_append {K V α : Type} [DecidableEq K]
    (key : α → K) (val : α → V) :
    ∀ (l : List α) (acc : List (K × V)), (l.map key).Nodup →
      (∀ x ∈ l, containsKey acc (key x) = false) →
      l.foldl (fun a x => pyInsert a (key x) (val x)) acc =
        acc ++ l.map (fun x => (key x, val x))
  | [], acc, _, _ => by simp
  | x :: t, acc, hnd, hdisj => by
    rw [List.foldl_cons, pyInsert_fresh (val x) (hdisj x (List.mem_cons_self x t))]
    have hnd' : (t.map key).Nodup := (List.nodup_cons.mp (by simpa using hnd)).2
    have hx : key x ∉ t.map key := (List.nodup_cons.mp (by simpa using hnd)).1
    have hdisj' : ∀ y ∈ t, containsKey (acc ++ [(key x, val x)]) (key y) = false := by
      intro y hy
      rw [containsKey_append]
      have h1 : containsKey acc (key y) = false := hdisj y (List.mem_cons_of_mem x hy)
      have h2 : containsKey [(key x, val x)] (key y) = false := by
        have hne : key y ≠ key x := fun he => hx (he ▸ List.mem_map_of_mem key hy)
        simp [containsKey, pyLookup, hne.symm]
      rw [h1, h2]
      rfl
    rw [foldl_pyInsert_eq_append key val t (acc ++ [(key x, val x)]) hnd' hdisj']
    simp

theorem foldl_pyInsert_eq_map {K V α : Type} [DecidableEq K]
    (key : α → K) (val : α → V) (l : List α) (hnd : (l.map key).Nodup) :
    l.foldl (fun a x => pyInsert a (key x) (val x)) [] =
      l.map (fun x => (key x, val x)) := by
  rw [foldl_pyInsert_eq_append key val l [] hnd (fun x _ => rfl)]
  simp

/-! ## Normalizer lemmas -/

theorem remapGroupName_eq_self {y : String}
    (h1 : pyIn "public.kern1." y = false) (h2 : pyIn "public.kern2." y = false) :
    remapGroupName y = y := by
  unfold remapGroupName
  rw [h1, h2]
  simp

/-! ## Monadic decomposition lemmas -/

theorem exc_bind_ok {α β : Type} {x : Except PyError α} {f : α → Except PyError β}
    {b : β} (h : (x >>= f) = .ok b) : ∃ a, x = .ok a ∧ f a = .ok b := by
  cases x with
  | error e => exact Except.noConfusion h
  | ok a => exact ⟨a, rfl, h⟩

theorem ofOpt_bind_ok {α β : Type} {o : Option α} {e : PyError}
    {f : α → Except PyError β} {b : β} (h : (ofOpt o e >>= f) = .ok b) :
    ∃ a, o = some a ∧ f a = .ok b := by
  cases o with
  | none => exact Except.noConfusion h
  | some a => exact ⟨a, rfl, h⟩

theorem pure_ok {α : Type} {a b : α} (h : (pure a : Except PyError α) = .ok b) :
    b = a := by
  cases h
  rfl

/-! ## Classifier phase preservation lemmas -/

theorem coreEq_refl (s : KPState) : CoreEq s s :=
  ⟨rfl, rfl, rfl, rfl, rfl, rfl, rfl⟩

theorem coreEq_trans {s1 s2 s3 : KPState} (h1 : CoreEq s1 s2) (h2 : CoreEq s2 s3) :
    CoreEq s1 s3 := by
  obtain ⟨a1, a2, a3, a4, a5, a6, a7⟩ := h1
  obtain ⟨b1, b2, b3, b4, b5, b6, b7⟩ := h2
  exact ⟨b1.trans a1, b2.trans a2, b3.trans a3, b4.trans a4, b5.trans a5,
    b6.trans a6, b7.trans a7⟩

theorem memberStep_core {glyph : Item} {g2g : List KPair} {rtl : Bool}
    {acc acc' : KPState × Int} {m : String}
    (h : memberStep glyph g2g rtl acc m = .ok acc') : CoreEq acc.1 acc'.1 := by
  rw [memberStep] at h
  split at h
  · rcases ofOpt_bind_ok h with ⟨v, _, h⟩
    split at h <;> (rw [pure_ok h]; exact ⟨rfl, rfl, rfl, rfl, rfl, rfl, rfl⟩)
  · have := pure_ok h
    rw [this]
    exact coreEq_refl _

theorem phaseCStep_core {g2g : List KPair} {s s' : KPState} {p : KPair}
    (h : phaseCStep g2g s p = .ok s') : CoreEq s s' := by
  rw [phaseCStep] at h
  rcases ofOpt_bind_ok h with ⟨value, _, h⟩
  rcases ofOpt_bind_ok h with ⟨groupList, _, h⟩
  rcases ofOpt_bind_ok h with ⟨gl, _, h⟩
  split at h
  · split at h <;> (rw [pure_ok h]; exact ⟨rfl, rfl, rfl, rfl, rfl, rfl, rfl⟩)
  · rcases exc_bind_ok h with ⟨r, hr, h⟩
    have hcore : CoreEq s r.1 := by
      have hinv := exFoldl_inv
        (P := fun (a : KPState × Int) => CoreEq s a.1)
        (f := memberStep p.1 g2g (isRTLPair s.reference_groups p))
        (fun a m a' ha hp => coreEq_trans hp (memberStep_core ha))
        hr (coreEq_refl s)
      exact hinv
    split at h
    · have := pure_ok h; rw [this]
      exact coreEq_trans hcore ⟨rfl, rfl, rfl, rfl, rfl, rfl, rfl⟩
    · split at h
      all_goals have := pure_ok h
      all_goals rw [this]
      all_goals exact coreEq_trans hcore ⟨rfl, rfl, rfl, rfl, rfl, rfl, rfl⟩

theorem phaseDCont_core (s : KPState) (p : KPair) (value : Int) (rtl : Bool)
    (lG rG : List String) : CoreEq s (phaseDCont s p value rtl lG rG) := by
  rw [phaseDCont]
  split
  · exact ⟨rfl, rfl, rfl, rfl, rfl, rfl, rfl⟩
  · split <;> exact ⟨rfl, rfl, rfl, rfl, rfl, rfl, rfl⟩

theorem phaseDStep_core {s s' : KPState} {p : KPair}
    (h : phaseDStep s p = .ok s') : CoreEq s s' := by
  rw [phaseDStep] at h
  rcases ofOpt_bind_ok h with ⟨value, _, h⟩
  rcases ofOpt_bind_ok h with ⟨lG, _, h⟩
  split at h
  · rcases ofOpt_bind_ok h with ⟨rG, _, h⟩
    have := pure_ok h; rw [this]
    exact phaseDCont_core ..
  · rcases ofOpt_bind_ok h with ⟨gr, _, h⟩
    split at h
    · split at h <;> (rw [pure_ok h]; exact ⟨rfl, rfl, rfl, rfl, rfl, rfl, rfl⟩)
    · have := pure_ok h; rw [this]
      exact phaseDCont_core ..

theorem phaseE_core {g2g : List KPair} {s s' : KPState}
    (h : phaseE g2g s = .ok s') : CoreEq s s' := by
  rw [phaseE] at h
  rcases exc_bind_ok h with ⟨s1, hs1, h⟩
  have hc1 : CoreEq s s1 := by
    refine exFoldl_inv (P := fun x => CoreEq s x) ?_ hs1 (coreEq_refl s)
    intro a q a' ha hp
    rcases ofOpt_bind_ok ha with ⟨v, _, ha⟩
    have := pure_ok ha; rw [this]
    exact coreEq_trans hp ⟨rfl, rfl, rfl, rfl, rfl, rfl, rfl⟩
  have hc2 : CoreEq s1 s' := by
    refine exFoldl_inv (P := fun x => CoreEq s1 x) ?_ h (coreEq_refl s1)
    intro a q a' ha hp
    rcases ofOpt_bind_ok ha with ⟨v, _, ha⟩
    have := pure_ok ha; rw [this]
    exact coreEq_trans hp ⟨rfl, rfl, rfl, rfl, rfl, rfl, rfl⟩
  exact coreEq_trans hc1 hc2

theorem phaseFBranch_core {s s' : KPState} {p : KPair} {value : Int} {rtl : Bool}
    {gl gr : List String} (h : phaseFBranch s p value rtl gl gr = .ok s') :
    CoreEq s s' := by
  rw [phaseFBranch] at h
  split at h
  · split at h
    all_goals have := pure_ok h
    all_goals rw [this]
    all_goals exact ⟨rfl, rfl, rfl, rfl, rfl, rfl, rfl⟩
  · split at h
    · rcases ofOpt_bind_ok h with ⟨v2, _, h⟩
      split at h
      all_goals have := pure_ok h
      all_goals rw [this]
      all_goals exact ⟨rfl, rfl, rfl, rfl, rfl, rfl, rfl⟩
    · have := pure_ok h; rw [this]; exact coreEq_refl s

theorem phaseFStep_core {s s' : KPState} {p : KPair}
    (h : phaseFStep s p = .ok s') : CoreEq s s' := by
  rw [phaseFStep] at h
  rcases ofOpt_bind_ok h with ⟨value, _, h⟩
  rcases ofOpt_bind_ok h with ⟨gl, _, h⟩
  rcases ofOpt_bind_ok h with ⟨gr, _, h⟩
  rcases exc_bind_ok h with ⟨s1, hs1, h⟩
  have hc1 : CoreEq s s1 := phaseFBranch_core hs1
  have := pure_ok h
  rw [this]
  exact coreEq_trans hc1 ⟨rfl, rfl, rfl, rfl, rfl, rfl, rfl⟩

theorem findExceptions_fields {s s' : KPState} (h : findExceptions s = .ok s') :
    CoreEq { s with kerning := (stripFold s.kerning).1,
                    predefined_exceptions := (stripFold s.kerning).2 } s' := by
  rw [findExceptions] at h
  rcases exc_bind_ok h with ⟨s1, hs1, h⟩
  rcases exc_bind_ok h with ⟨s2, hs2, h⟩
  rcases exc_bind_ok h with ⟨s3, hs3, h⟩
  have hc1 := exFoldl_inv (P := CoreEq _)
    (fun a q a' ha hp => coreEq_trans hp (phaseCStep_core ha)) hs1 (coreEq_refl _)
  have hc2 := exFoldl_inv (P := CoreEq _)
    (fun a q a' ha hp => coreEq_trans hp (phaseDStep_core ha)) hs2 (coreEq_refl _)
  have hc3 : CoreEq s2 s3 := phaseE_core hs3
  have hc4 := exFoldl_inv (P := CoreEq _)
    (fun a q a' ha hp => coreEq_trans hp (phaseFStep_core ha)) h (coreEq_refl _)
  exact coreEq_trans (coreEq_trans (coreEq_trans hc1 hc2) hc3) hc4

/-! ## Strip-loop lemmas -/

theorem stripAux_preserve (L : List (KPair × Int)) :
    ∀ (acc : KDict × KDict) (p : KPair) (v : Int), (∀ x ∈ L, x.1 ≠ p) →
      pyLookup acc.2 p = some v → pyLookup acc.1 p = none →
      pyLookup (L.foldl stripStep acc).2 p = some v ∧
        pyLookup (L.foldl stripStep acc).1 p = none := by
  induction L with
  | nil => exact fun acc p v _ h2 h1 => ⟨h2, h1⟩
  | cons x t ih =>
    intro acc p v hkeys h2 h1
    rw [List.foldl_cons]
    have hxp : x.1 ≠ p := hkeys x (List.mem_cons_self x t)
    refine ih _ p v (fun y hy => hkeys y (List.mem_cons_of_mem x hy)) ?_ ?_
    · rw [stripStep]
      split
      · exact h2
      · split
        · simpa using (pyLookup_pyInsert_ne acc.2 x.1 p x.2 hxp.symm).trans h2
        · exact h2
    · rw [stripStep]
      split
      · simpa using (pyLookup_pyDel_ne acc.1 x.1 p hxp.symm).trans h1
      · split
        · simpa using (pyLookup_pyDel_ne acc.1 x.1 p hxp.symm).trans h1
        · exact h1

theorem stripAux_spec (L : List (KPair × Int)) :
    ∀ (acc : KDict × KDict) (p : KPair) (v : Int),
      (L.map (fun x => x.1)).Nodup → (p, v) ∈ L →
      pyIn tag_ignore p.1 = false →
      (pyIn tag_exception p.1 = true ∨ pyIn tag_exception p.2 = true) →
      pyLookup (L.foldl stripStep acc).2 p = some v ∧
        pyLookup (L.foldl stripStep acc).1 p = none := by
  induction L with
  | nil => intro acc p v _ hmem; exact absurd hmem (List.not_mem_nil _)
  | cons x t ih =>
    intro acc p v hnd hmem hig hexc
    rw [List.map_cons] at hnd
    have hnd' := List.nodup_cons.mp hnd
    rcases List.mem_cons.mp hmem with heq | hmemT
    · rw [List.foldl_cons, ← heq]
      have hcond : (pyIn tag_exception p.1 || pyIn tag_exception p.2) = true := by
        rcases hexc with he | he <;> simp [he]
      have hstep : stripStep acc (p, v) = (pyDel acc.1 p, pyInsert acc.2 p v) := by
        rw [stripStep]
        simp [hig, hcond]
      rw [hstep]
      refine stripAux_preserve t _ p v ?_ ?_ ?_
      · intro y hy hyp
        have hmm : p ∈ t.map (fun x => x.1) := by
          rw [← hyp]
          exact List.mem_map_of_mem _ hy
        have hx1 : x.1 = p := by rw [← heq]
        exact hnd'.1 (hx1 ▸ hmm)
      · exact pyLookup_pyInsert_self acc.2 p v
      · exact pyLookup_pyDel_self acc.1 p
    · rw [List.foldl_cons]
      exact ih _ p v hnd'.2 hmemT hig hexc

theorem stripFold_spec {k : KDict} {p : KPair} {v : Int}
    (hnd : (pyKeys k).Nodup) (hmem : (p, v) ∈ k)
    (hig : pyIn tag_ignore p.1 = false)
    (hexc : pyIn tag_exception p.1 = true ∨ pyIn tag_exception p.2 = true) :
    pyLookup (stripFold k).2 p = some v ∧ pyLookup (stripFold k).1 p = none := by
  rw [stripFold]
  refine stripAux_spec k.reverse (k, []) p v ?_ (List.mem_reverse.mpr hmem) hig hexc
  rw [List.map_reverse]
  exact List.nodup_reverse.mpr (by simpa [pyKeys] using hnd)

theorem stripAux_lookup_sub (k : KDict) (L : List (KPair × Int)) :
    ∀ (acc : KDict × KDict),
      (∀ p v, pyLookup acc.1 p = some v → pyLookup k p = some v) →
      ∀ p v, pyLookup (L.foldl stripStep acc).1 p = some v → pyLookup k p = some v := by
  induction L with
  | nil => exact fun acc hacc => hacc
  | cons x t ih =>
    intro acc hacc
    rw [List.foldl_cons]
    refine ih _ ?_
    intro p v hp
    have hdel : ∀ q : KPair, pyLookup (pyDel acc.1 q) p = some v →
        pyLookup k p = some v := by
      intro q hq
      by_cases hpq : p = q
      · rw [hpq, pyLookup_pyDel_self] at hq
        exact absurd hq (by simp)
      · exact hacc p v ((pyLookup_pyDel_ne acc.1 q p hpq).symm.trans hq)
    rw [stripStep] at hp
    split at hp
    · exact hdel x.1 hp
    · split at hp
      · exact hdel x.1 hp
      · exact hacc p v hp

theorem stripFold_lookup_sub {k : KDict} {p : KPair} {v : Int}
    (h : pyLookup (stripFold k).1 p = some v) : pyLookup k p = some v := by
  rw [stripFold] at h
  exact stripAux_lookup_sub k k.reverse (k, []) (fun p v hp => hp) p v h

theorem stripFold_keys_sub {k : KDict} {p : KPair}
    (h : p ∈ pyKeys (stripFold k).1) : p ∈ pyKeys k := by
  rcases lookup_isSome_of_mem_keys h with ⟨v, hv⟩
  exact mem_keys_of_lookup (stripFold_lookup_sub hv)

/-! ## KernProcessor field lemmas -/

theorem kernProcessor_fields {groups : GDict} {kerning : KDict} {diss : Bool}
    {st : KPState} (h : kernProcessor groups kerning diss = .ok st) :
    st.kerning = (stripFold (kpWorking groups kerning diss)).1 ∧
    st.predefined_exceptions = (stripFold (kpWorking groups kerning diss)).2 ∧
    st.rtl_predefined_exceptions = [] := by
  rw [kernProcessor] at h
  rcases exc_bind_ok h with ⟨s1, hs1, h⟩
  obtain ⟨hek, _, _, _, _, hep, her⟩ := findExceptions_fields hs1
  have hfin : st.kerning = s1.kerning ∧ st.predefined_exceptions = s1.predefined_exceptions ∧
      st.rtl_predefined_exceptions = s1.rtl_predefined_exceptions := by
    split at h
    · have := pure_ok h; rw [this]; exact ⟨rfl, rfl, rfl⟩
    · have := pure_ok h; rw [this]; exact ⟨rfl, rfl, rfl⟩
  refine ⟨?_, ?_, ?_⟩
  · rw [hfin.1, hek]
  · rw [hfin.2.1, hep]
  · rw [hfin.2.2, her]

/-- The working kerning always has duplicate-free keys: it is rebuilt by
dict insertion during remapping. -/
theorem kpWorking_nodup (groups : GDict) (kerning : KDict) (diss : Bool) :
    (pyKeys (kpWorking groups kerning diss)).Nodup := by
  rw [kpWorking, remapKerning]
  exact nodupKeys_foldl_pyInsert
    (fun pv : KPair × Int => (remapGroupName pv.1.1, remapGroupName pv.1.2))
    (fun pv : KPair × Int => pv.2) _ [] (by simp [pyKeys])

/-! ## Exception-dict monotonicity lemmas -/

theorem ggMono_refl (s : KPState) : GGMono s s :=
  ⟨fun _ h => h, fun _ h => h⟩

theorem ggMono_trans {s1 s2 s3 : KPState} (h1 : GGMono s1 s2) (h2 : GGMono s2 s3) :
    GGMono s1 s3 :=
  ⟨fun q h => h2.1 q (h1.1 q h), fun q h => h2.2 q (h1.2 q h)⟩

theorem hasGGExc_of_mono {s s' : KPState} {p : KPair} (hm : GGMono s s')
    (h : hasGGExc s p) : hasGGExc s' p := by
  rcases h with h | h
  · exact Or.inl (hm.1 p h)
  · exact Or.inr (hm.2 p h)

theorem memberStep_ggmono {glyph : Item} {g2g : List KPair} {rtl : Bool}
    {acc acc' : KPState × Int} {m : String}
    (h : memberStep glyph g2g rtl acc m = .ok acc') : GGMono acc.1 acc'.1 := by
  rw [memberStep] at h
  split at h
  · rcases ofOpt_bind_ok h with ⟨v, _, h⟩
    split at h
    · have := pure_ok h; rw [this]
      exact ⟨fun q hq => hq, fun q hq => containsKey_pyInsert_mono _ _ _ _ hq⟩
    · have := pure_ok h; rw [this]
      exact ⟨fun q hq => containsKey_pyInsert_mono _ _ _ _ hq, fun q hq => hq⟩
  · have := pure_ok h; rw [this]
    exact ggMono_refl _

theorem phaseCStep_ggmono {g2g : List KPair} {s s' : KPState} {p : KPair}
    (h : phaseCStep g2g s p = .ok s') : GGMono s s' := by
  rw [phaseCStep] at h
  rcases ofOpt_bind_ok h with ⟨value, _, h⟩
  rcases ofOpt_bind_ok h with ⟨groupList, _, h⟩
  rcases ofOpt_bind_ok h with ⟨gl, _, h⟩
  split at h
  · split at h
    all_goals have := pure_ok h
    all_goals rw [this]
    all_goals exact ggMono_refl _
  · rcases exc_bind_ok h with ⟨r, hr, h⟩
    have hmono : GGMono s r.1 :=
      exFoldl_inv (P := fun (a : KPState × Int) => GGMono s a.1)
        (fun a m a' ha hp => ggMono_trans hp (memberStep_ggmono ha)) hr (ggMono_refl s)
    split at h
    · have := pure_ok h; rw [this]; exact hmono
    · split at h
      all_goals have := pure_ok h
      all_goals rw [this]
      all_goals exact hmono

theorem phaseDStep_ggmono {s s' : KPState} {p : KPair}
    (h : phaseDStep s p = .ok s') : GGMono s s' := by
  rw [phaseDStep] at h
  rcases ofOpt_bind_ok h with ⟨value, _, h⟩
  rcases ofOpt_bind_ok h with ⟨lG, _, h⟩
  have hcont : ∀ (s0 : KPState) (p0 : KPair) (v : Int) (rtl : Bool)
      (a b : List String), GGMono s0 (phaseDCont s0 p0 v rtl a b) := by
    intro s0 p0 v rtl a b
    rw [phaseDCont]
    split
    · exact ggMono_refl _
    · split
      · exact ggMono_refl _
      · exact ggMono_refl _
  split at h
  · rcases ofOpt_bind_ok h with ⟨rG, _, h⟩
    have := pure_ok h; rw [this]
    exact hcont ..
  · rcases ofOpt_bind_ok h with ⟨gr, _, h⟩
    split at h
    · split at h
      all_goals have := pure_ok h
      all_goals rw [this]
      all_goals exact ggMono_refl _
    · have := pure_ok h; rw [this]
      exact hcont ..

theorem phaseE_ggmono {g2g : List KPair} {s s' : KPState}
    (h : phaseE g2g s = .ok s') : GGMono s s' := by
  rw [phaseE] at h
  rcases exc_bind_ok h with ⟨s1, hs1, h⟩
  have hc1 : GGMono s s1 := by
    refine exFoldl_inv (P := GGMono s) ?_ hs1 (ggMono_refl s)
    intro a q a' ha hp
    rcases ofOpt_bind_ok ha with ⟨v, _, ha⟩
    have := pure_ok ha; rw [this]
    exact ggMono_trans hp ⟨fun q' hq => containsKey_pyInsert_mono _ _ _ _ hq, fun q' hq => hq⟩
  have hc2 : GGMono s1 s' := by
    refine exFoldl_inv (P := GGMono s1) ?_ h (ggMono_refl s1)
    intro a q a' ha hp
    rcases ofOpt_bind_ok ha with ⟨v, _, ha⟩
    have := pure_ok ha; rw [this]
    exact ggMono_trans hp ⟨fun q' hq => hq, fun q' hq => containsKey_pyInsert_mono _ _ _ _ hq⟩
  exact ggMono_trans hc1 hc2

theorem phaseFBranch_ggmono {s s' : KPState} {p : KPair} {value : Int} {rtl : Bool}
    {gl gr : List String} (h : phaseFBranch s p value rtl gl gr = .ok s') :
    GGMono s s' := by
  rw [phaseFBranch] at h
  split at h
  · split at h
    · have := pure_ok h; rw [this]
      exact ⟨fun q hq => hq, fun q hq => containsKey_pyInsert_mono _ _ _ _ hq⟩
    · have := pure_ok h; rw [this]
      exact ⟨fun q hq => containsKey_pyInsert_mono _ _ _ _ hq, fun q hq => hq⟩
  · split at h
    · rcases ofOpt_bind_ok h with ⟨v2, _, h⟩
      split at h
      all_goals have := pure_ok h
      all_goals rw [this]
      all_goals exact ggMono_refl _
    · have := pure_ok h; rw [this]; exact ggMono_refl _

theorem phaseFStep_ggmono {s s' : KPState} {p : KPair}
    (h : phaseFStep s p = .ok s') : GGMono s s' := by
  rw [phaseFStep] at h
  rcases ofOpt_bind_ok h with ⟨value, _, h⟩
  rcases ofOpt_bind_ok h with ⟨gl, _, h⟩
  rcases ofOpt_bind_ok h with ⟨gr, _, h⟩
  rcases exc_bind_ok h with ⟨s1, hs1, h⟩
  have := pure_ok h; rw [this]
  exact ggMono_trans (phaseFBranch_ggmono hs1) ⟨fun q hq => hq, fun q hq => hq⟩

theorem exFoldl_ok_mem {σ α : Type} {f : σ → α → Except PyError σ} {s s' : σ}
    {l : List α} (h : exFoldl f s l = .ok s') {x : α} (hx : x ∈ l) :
    ∃ l1 l2 a b, l = l1 ++ x :: l2 ∧ exFoldl f s l1 = .ok a ∧ f a x = .ok b ∧
      exFoldl f b l2 = .ok s' := by
  obtain ⟨l1, l2, rfl⟩ := List.append_of_mem hx
  rcases exFoldl_ok_append h with ⟨a, ha, hrest⟩
  rcases exFoldl_ok_cons hrest with ⟨b, hb, hrest2⟩
  exact ⟨l1, l2, a, b, rfl, ha, hb, hrest2⟩

theorem phaseCStep_gl {g2g : List KPair} {s s' : KPState} {p : KPair}
    (h : phaseCStep g2g s p = .ok s') : ∃ gl, s.grouped_left = some gl := by
  rw [phaseCStep] at h
  rcases ofOpt_bind_ok h with ⟨v, _, h⟩
  rcases ofOpt_bind_ok h with ⟨gL, _, h⟩
  rcases ofOpt_bind_ok h with ⟨gl, hgl, _⟩
  exact ⟨gl, hgl⟩

theorem phaseFStep_gr {s s' : KPState} {p : KPair}
    (h : phaseFStep s p = .ok s') : ∃ gr, s.grouped_right = some gr := by
  rw [phaseFStep] at h
  rcases ofOpt_bind_ok h with ⟨v, _, h⟩
  rcases ofOpt_bind_ok h with ⟨gl, _, h⟩
  rcases ofOpt_bind_ok h with ⟨gr, hgr, _⟩
  exact ⟨gr, hgr⟩

theorem phaseCStep_establish {g2g : List KPair} {s s' : KPState} {glyph G : Item}
    (h : phaseCStep g2g s (glyph, G) = .ok s')
    {members : List String} (hgrp : pyLookup s.groups G = some members)
    {m : String} (hm : m ∈ members) (hmemg2g : (glyph, m) ∈ g2g)
    {gl : List String} (hgl : s.grouped_left = some gl) (hnotin : glyph ∉ gl) :
    hasGGExc s' (glyph, m) := by
  rw [phaseCStep] at h
  rcases ofOpt_bind_ok h with ⟨value, hval, h⟩
  rcases ofOpt_bind_ok h with ⟨groupList, hgrpl, h⟩
  have hgeq : members = groupList := by
    have h2 : pyLookup s.groups G = some groupList := hgrpl
    rw [hgrp] at h2
    injection h2
  subst hgeq
  rcases ofOpt_bind_ok h with ⟨gl', hgl', h⟩
  have hgleq : gl = gl' := by
    rw [hgl] at hgl'
    injection hgl'
  subst hgleq
  split at h
  · exact absurd (by assumption) hnotin
  · rcases exc_bind_ok h with ⟨r, hr, h⟩
    rcases exFoldl_ok_mem hr hm with ⟨m1, m2, acc1, acc2, _, _, hstep, hrest2⟩
    have hexc2 : hasGGExc acc2.1 (glyph, m) := by
      rw [memberStep] at hstep
      split at hstep
      · rcases ofOpt_bind_ok hstep with ⟨w, hw, hstep⟩
        split at hstep
        · have := pure_ok hstep; rw [this]
          exact Or.inr (by rw [containsKey, pyLookup_pyInsert_self]; rfl)
        · have := pure_ok hstep; rw [this]
          exact Or.inl (by rw [containsKey, pyLookup_pyInsert_self]; rfl)
      · exact absurd hmemg2g (by assumption)
    have hexcr : hasGGExc r.1 (glyph, m) :=
      hasGGExc_of_mono
        (exFoldl_inv (P := fun (a : KPState × Int) => GGMono acc2.1 a.1)
          (fun a mm a' ha hp => ggMono_trans hp (memberStep_ggmono ha)) hrest2
          (ggMono_refl _)) hexc2
    split at h
    · have := pure_ok h; rw [this]; exact hexcr
    · split at h
      all_goals have := pure_ok h
      all_goals rw [this]
      all_goals exact hexcr

theorem phaseFStep_establish {s s' : KPState} {p : KPair}
    (h : phaseFStep s p = .ok s')
    {gl gr : List String} (hgl : s.grouped_left = some gl)
    (hgr : s.grouped_right = some gr)
    (hcond : p.1 ∈ gl ∨ p.2 ∈ gr) : hasGGExc s' p := by
  rw [phaseFStep] at h
  rcases ofOpt_bind_ok h with ⟨value, hval, h⟩
  rcases ofOpt_bind_ok h with ⟨gl', hgl', h⟩
  rcases ofOpt_bind_ok h with ⟨gr', hgr', h⟩
  have hgleq : gl = gl' := by rw [hgl] at hgl'; injection hgl'
  subst hgleq
  have hgreq : gr = gr' := by rw [hgr] at hgr'; injection hgr'
  subst hgreq
  rcases exc_bind_ok h with ⟨s1, hs1, h⟩
  have hs1exc : hasGGExc s1 p := by
    rw [phaseFBranch] at hs1
    split at hs1
    · split at hs1
      · have := pure_ok hs1; rw [this]
        exact Or.inr (by rw [containsKey, pyLookup_pyInsert_self]; rfl)
      · have := pure_ok hs1; rw [this]
        exact Or.inl (by rw [containsKey, pyLookup_pyInsert_self]; rfl)
    · exfalso
      have hcc : ¬(decide (p.1 ∈ gl) || decide (p.2 ∈ gr)) = true := by assumption
      rcases hcond with hx | hx <;> simp [hx] at hcc
  have := pure_ok h; rw [this]
  exact hs1exc

/-! ## Group-free classification lemmas -/

theorem usedGroupNames_nil {k : KDict}
    (h : ∀ p ∈ pyKeys k, isGroup p.1 = false ∧ isGroup p.2 = false) :
    usedGroupNames k = [] := by
  rw [usedGroupNames]
  have hfold : ∀ (L : List KPair) (acc : List String),
      (∀ p ∈ L, isGroup p.1 = false ∧ isGroup p.2 = false) →
      L.foldl (fun acc p => acc ++ (if isGroup p.1 then [p.1] else [])
        ++ (if isGroup p.2 then [p.2] else [])) acc = acc := by
    intro L
    induction L with
    | nil => intro acc _; rfl
    | cons q t ih =>
      intro acc hq
      rw [List.foldl_cons]
      have h1 := (hq q (List.mem_cons_self q t)).1
      have h2 := (hq q (List.mem_cons_self q t)).2
      rw [h1, h2]
      simp only [Bool.false_eq_true, if_false, List.append_nil]
      exact ih acc (fun p hp => hq p (List.mem_cons_of_mem q hp))
  rw [hfold (pyKeys k) [] h]
  rfl

theorem usedGroups_nil {groups : GDict} {k : KDict}
    (h : ∀ p ∈ pyKeys k, isGroup p.1 = false ∧ isGroup p.2 = false) :
    usedGroups groups k = [] := by
  rw [usedGroups, usedGroupNames_nil h]
  rfl

theorem sortPairs_ne_nil {l : List KPair} (h : l ≠ []) : sortPairs l ≠ [] := by
  intro hs
  apply h
  have := (List.perm_insertionSort (fun a b => pairLe a b = true) l).length_eq
  rw [sortPairs] at hs
  rw [hs] at this
  exact List.length_eq_zero.mp this.symm

theorem bind_ok_eq {α β : Type} (a : α) (f : α → Except PyError β) :
    (Except.ok a : Except PyError α) >>= f = f a := rfl

theorem phaseFStep_err {s : KPState} {q : KPair} {v : Int}
    (hl : pyLookup s.kerning q = some v) (hgl : s.grouped_left = none) :
    phaseFStep s q = .error .attributeError := by
  rw [phaseFStep, hl, hgl]
  rfl

theorem findExceptions_attrError {s : KPState}
    (hgl : s.grouped_left = none)
    (hexpl : s.explodedPairList = []) (hrtlexpl : s.RTLexplodedPairList = [])
    (hng : ∀ p ∈ pyKeys (stripFold s.kerning).1,
      isGroup p.1 = false ∧ isGroup p.2 = false)
    (hne : (stripFold s.kerning).1 ≠ []) :
    findExceptions s = .error .attributeError := by
  have hg2gr : g2grList (stripFold s.kerning).1 = [] := by
    rw [g2grList]
    have : (pyKeys (stripFold s.kerning).1).filter
        (fun p => !isGroup p.1 && isGroup p.2) = [] := by
      rw [List.filter_eq_nil_iff]
      intro p hp
      rw [(hng p hp).2]
      simp
    rw [this]
    rfl
  have hgr2i : gr2iList (stripFold s.kerning).1 = [] := by
    rw [gr2iList]
    have : (pyKeys (stripFold s.kerning).1).filter (fun p => isGroup p.1) = [] := by
      rw [List.filter_eq_nil_iff]
      intro p hp
      rw [(hng p hp).1]
      simp
    rw [this]
    rfl
  have hkeysne : pyKeys (stripFold s.kerning).1 ≠ [] := by
    intro hk
    apply hne
    cases hd : (stripFold s.kerning).1 with
    | nil => rfl
    | cons a t => rw [hd, keys_cons] at hk; exact List.noConfusion hk
  have hfilter : (pyKeys (stripFold s.kerning).1).filter
      (fun p => !isGroup p.1 && !isGroup p.2) = pyKeys (stripFold s.kerning).1 := by
    rw [List.filter_eq_self]
    intro p hp
    rw [(hng p hp).1, (hng p hp).2]
    rfl
  have hg2gne : g2gList (stripFold s.kerning).1 ≠ [] := by
    rw [g2gList, hfilter]
    exact sortPairs_ne_nil hkeysne
  obtain ⟨q, rest, hcons⟩ := List.exists_cons_of_ne_nil hg2gne
  have hqmem : q ∈ pyKeys (stripFold s.kerning).1 := by
    have hq : q ∈ g2gList (stripFold s.kerning).1 := by
      rw [hcons]; exact List.mem_cons_self q rest
    rw [g2gList] at hq
    have := (List.perm_insertionSort (fun a b => pairLe a b = true) _).mem_iff.mp hq
    rw [hfilter] at this
    exact this
  obtain ⟨v, hv⟩ := lookup_isSome_of_mem_keys hqmem
  have hbody : phaseE (q :: rest)
      { s with kerning := (stripFold s.kerning).1,
               predefined_exceptions := (stripFold s.kerning).2 } =
      .ok { s with kerning := (stripFold s.kerning).1,
                   predefined_exceptions := (stripFold s.kerning).2 } := by
    rw [phaseE]
    simp only [hexpl, hrtlexpl]
    rfl
  have hFerr := phaseFStep_err
    (s := { s with kerning := (stripFold s.kerning).1,
                   predefined_exceptions := (stripFold s.kerning).2 })
    (q := q) (v := v) hv hgl
  rw [findExceptions]
  simp only [hg2gr, hgr2i, hcons, exFoldl, bind_ok_eq, hbody, hFerr]

/-! ## Claim C1 -/

/-- C1 (code bug): conservation fails.  On groups `{@MMK_L_ARA_X: [a],
@MMK_R_B: [b]}` and kerning `{(@MMK_L_ARA_X, b): 5, (c, @MMK_R_B): 7}` the
pair `(@MMK_L_ARA_X, b)` is an RTL group-to-glyph exception, a branch that
never appends to `pairs_processed`; the run completes with 2 kerning pairs
but only 1 processed and 0 unprocessed, so `_sanityCheck` reports a
mismatch. -/
theorem c1_conservation_violated :
    (kernProcessor [("@MMK_L_ARA_X", ["a"]), ("@MMK_R_B", ["b"])]
        [(("@MMK_L_ARA_X", "b"), 5), (("c", "@MMK_R_B"), 7)] false).toOption.map
      (fun st => (st.kerning.length, st.pairs_processed.length,
        st.pairs_unprocessed.length, pyLookup st.rtl_group_glyph_exceptions
          ("@MMK_L_ARA_X", "b"), sanityMismatch st))
      = some (2, 1, 0, some 5, true) := by decide

/-! ## Claim C3 -/

/-- C3 (code bug): zero-value suppression fails for a glyph-to-group pair
with a member override.  On groups `{@MMK_R_G: [m]}` and kerning
`{(g, @MMK_R_G): 0, (g, m): 5}`, the member loop rebinds the local `value`
to 5, so the zero check sees 5: the zero-valued class pair is rendered in
the `glyph_group` bucket with value 5 and is not recorded as unprocessed,
although the spec (and the source's own comment, line 593) drop it. -/
theorem c3_zero_value_leak :
    (kernProcessor [("@MMK_R_G", ["m"])]
        [(("g", "@MMK_R_G"), 0), (("g", "m"), 5)] false).toOption.map
      (fun st => (pyLookup st.kerning ("g", "@MMK_R_G"),
        pyLookup st.glyph_group ("g", "@MMK_R_G"), st.pairs_unprocessed))
      = some (some 0, some 5, []) := by decide

/-! ## Claim C8 -/

/-- C8 counterexample: `remap_group_name` is not idempotent.  On
`public.kern1.public.kern2.A` the first application yields
`@MMK_L_public.kern2.A`, which still contains the second storage marker and
is changed again by the next application; and `xpublic.kern1.y` is a
non-group name (neither `@`- nor `public.`-prefixed) that is not returned
unchanged. -/
theorem c8_remap_idempotent_cex :
    remapGroupName (remapGroupName "public.kern1.public.kern2.A") ≠
        remapGroupName "public.kern1.public.kern2.A" ∧
      (isGroup "xpublic.kern1.y" = false ∧
        remapGroupName "xpublic.kern1.y" ≠ "xpublic.kern1.y") := by decide

/-- C8 amended: `remap_group_name` is idempotent at every name whose image
contains neither `public.kern1.` nor `public.kern2.` as a substring (in
particular any name free of both markers, such as a plain `@MMK` display
name or an ordinary glyph name, is a fixed point). -/
theorem c8_remap_idempotent_amended (x : String)
    (h1 : pyIn "public.kern1." (remapGroupName x) = false)
    (h2 : pyIn "public.kern2." (remapGroupName x) = false) :
    remapGroupName (remapGroupName x) = remapGroupName x :=
  remapGroupName_eq_self h1 h2

/-- C8 witness: the amended idempotence at the display name `@MMK_L_A`. -/
theorem c8_remap_idempotent_amended_witness :
    (pyIn "public.kern1." (remapGroupName "@MMK_L_A") = false ∧
      pyIn "public.kern2." (remapGroupName "@MMK_L_A") = false) ∧
    remapGroupName (remapGroupName "@MMK_L_A") = remapGroupName "@MMK_L_A" :=
  ⟨⟨by decide, by decide⟩,
    c8_remap_idempotent_amended "@MMK_L_A" (by decide) (by decide)⟩

/-! ## Claim C7 -/

/-- C7 counterexample: during partitioning, a bucket pair absent from the
kerning mapping does not raise; `kerning.get(pair)` silently stores the
`None` placeholder in the emitted subtable. -/
theorem c7_silent_default_cex :
    msSubtables [(("a", "b"), 3)] [] [] 1000000 = [[(("a", "b"), none)]] := by decide

/-! ## Claim C6 -/

/-- C6 counterexample: with `maxSize` (0) below the estimated cost of the
first left item alone (40), the partitioner emits two subtables, the first
of which is empty, rather than exactly one non-empty subtable. -/
theorem c6_oversized_first_item_cex :
    ((0 : Int) < (firstItemCost [(("a", "b"), 5)] [] : Nat)) ∧
    msSubtables [(("a", "b"), 5)] [(("a", "b"), 5)] [] 0 =
      [[], [(("a", "b"), some 5)]] := by decide

/-! ## Claim C10 -/

/-- C10 counterexample: a non-empty sanitized kerning with no group
references whose only pair carries the exception marker: the pair is
stripped into the predefined bucket before the glyph-to-glyph loop, the
loop body never runs, and classification completes without any
`AttributeError`. -/
theorem c10_attribute_error_cex :
    (sanitizeKerning [] [(("EXC_a", "b"), 5)] = [(("EXC_a", "b"), 5)] ∧
      isGroup "EXC_a" = false ∧ isGroup "b" = false) ∧
    (kernProcessor [] [(("EXC_a", "b"), 5)] false).toOption.isSome = true := by decide

/-- C10 amended: if the sanitized kerning is non-empty, references no group
on either side (likewise after canonical renaming), and at least one pair
survives the ignore-tag and exception-marker stripping, then classification
does not complete: `KernProcessor` raises an `AttributeError`, because
`grouped_left`/`grouped_right` are assigned only when at least one group is
used, while the glyph-to-glyph pass reads them unconditionally. -/
theorem c10_attribute_error_amended (groups : GDict) (kerning : KDict) (diss : Bool)
    (h1 : sanitizeKerning groups kerning ≠ [])
    (h2 : ∀ p ∈ pyKeys (sanitizeKerning groups kerning),
      isGroup p.1 = false ∧ isGroup p.2 = false)
    (h3 : ∀ p ∈ pyKeys (kpWorking groups kerning diss),
      isGroup p.1 = false ∧ isGroup p.2 = false)
    (h4 : (stripFold (kpWorking groups kerning diss)).1 ≠ []) :
    kernProcessor groups kerning diss = .error .attributeError := by
  have husede : usedGroups groups (sanitizeKerning groups kerning) = [] :=
    usedGroups_nil h2
  have hng : ∀ p ∈ pyKeys (stripFold (kpWorking groups kerning diss)).1,
      isGroup p.1 = false ∧ isGroup p.2 = false :=
    fun p hp => h3 p (stripFold_keys_sub hp)
  rw [kernProcessor, husede]
  simp only [ne_eq, eq_self_iff_true, not_true, if_false]
  have herr := findExceptions_attrError
    (s := { kerning := kpWorking groups kerning diss,
            groups := kpGroups groups kerning diss,
            reference_groups := referenceGroupsOf groups,
            grouped_left := none, grouped_right := none })
    rfl rfl rfl hng h4
  rw [herr]
  rfl

/-- C10 witness: the amended AttributeError claim at groups `{}` and the
single surviving glyph-to-glyph pair `(a, b): 5`. -/
theorem c10_attribute_error_amended_witness :
    (sanitizeKerning [] [(("a", "b"), 5)] ≠ [] ∧
      (∀ p ∈ pyKeys (sanitizeKerning [] [(("a", "b"), 5)]),
        isGroup p.1 = false ∧ isGroup p.2 = false) ∧
      (∀ p ∈ pyKeys (kpWorking [] [(("a", "b"), 5)] false),
        isGroup p.1 = false ∧ isGroup p.2 = false) ∧
      (stripFold (kpWorking [] [(("a", "b"), 5)] false)).1 ≠ []) ∧
    kernProcessor [] [(("a", "b"), 5)] false = .error .attributeError :=
  ⟨⟨by decide, by decide, by decide, by decide⟩,
    c10_attribute_error_amended [] [(("a", "b"), 5)] false
      (by decide) (by decide) (by decide) (by decide)⟩

/-! ## Claim C4 -/

/-- C4 counterexample: the pair `(EXC_a, b_ARA)` carries the exception
marker and passes the RTL test, yet it is placed in the LTR
`predefined_exceptions` bucket while `rtl_predefined_exceptions` stays
empty (the source never writes to it); and the pair `(c.cxt, EXC_d)`
carries the marker but is dropped entirely by the ignore-tag check, landing
in no predefined bucket. -/
theorem c4_predefined_routing_cex :
    (isRTLPair (referenceGroupsOf []) ("EXC_a", "b_ARA") = true ∧
      pyIn tag_exception "EXC_d" = true) ∧
    (kernProcessor [] [(("EXC_a", "b_ARA"), 5), (("c.cxt", "EXC_d"), 7)] false).toOption.map
      (fun st => (st.rtl_predefined_exceptions,
        pyLookup st.predefined_exceptions ("EXC_a", "b_ARA"),
        pyLookup st.predefined_exceptions ("c.cxt", "EXC_d"),
        pyLookup st.kerning ("c.cxt", "EXC_d")))
      = some ([], some 5, none, none) := by decide

/-- C4 amended: every pair of the working kerning whose left item does not
contain the ignore tag and in which either item contains the exception
marker is removed from the working kerning and placed, with its value
preserved as-is, into the single (LTR) predefined-exceptions bucket
regardless of the RTL test; the RTL predefined bucket always stays empty,
and predefined exceptions are rendered with minimum 0 and `enum`, so the
trimming filter keeps every value. -/
theorem c4_predefined_routing_amended (groups : GDict) (kerning : KDict)
    (diss : Bool) (st : KPState) (hok : kernProcessor groups kerning diss = .ok st)
    (p : KPair) (v : Int)
    (hv : pyLookup (kpWorking groups kerning diss) p = some v)
    (hig : pyIn tag_ignore p.1 = false)
    (hexc : pyIn tag_exception p.1 = true ∨ pyIn tag_exception p.2 = true) :
    pyLookup st.predefined_exceptions p = some v ∧
    pyLookup st.kerning p = none ∧
    st.rtl_predefined_exceptions = [] ∧
    (∀ w : Int, dict2posKept w 0 true false = true) := by
  obtain ⟨hk, hp, hr⟩ := kernProcessor_fields hok
  have hmem : (p, v) ∈ kpWorking groups kerning diss := mem_of_lookup hv
  have hspec := stripFold_spec (kpWorking_nodup groups kerning diss) hmem hig hexc
  rw [hk, hp, hr]
  exact ⟨hspec.1, hspec.2, rfl, fun w => rfl⟩

/-- C4 witness: the amended predefined-exception routing at the single pair
`(EXC_a, b): 5` with no groups. -/
theorem c4_predefined_routing_amended_witness :
    (kernProcessor [] [(("EXC_a", "b"), 5)] false =
        .ok ({ predefined_exceptions := [(("EXC_a", "b"), 5)] } : KPState) ∧
      pyLookup (kpWorking [] [(("EXC_a", "b"), 5)] false) ("EXC_a", "b") = some 5 ∧
      pyIn tag_ignore "EXC_a" = false ∧ pyIn tag_exception "EXC_a" = true) ∧
    (pyLookup ({ predefined_exceptions := [(("EXC_a", "b"), 5)] } : KPState).predefined_exceptions
        ("EXC_a", "b") = some 5 ∧
      pyLookup ({ predefined_exceptions := [(("EXC_a", "b"), 5)] } : KPState).kerning
        ("EXC_a", "b") = none ∧
      ({ predefined_exceptions := [(("EXC_a", "b"), 5)] } : KPState).rtl_predefined_exceptions = [] ∧
      (∀ w : Int, dict2posKept w 0 true false = true)) :=
  ⟨⟨by rfl, by decide, by decide, by decide⟩,
    c4_predefined_routing_amended [] [(("EXC_a", "b"), 5)] false
      ({ predefined_exceptions := [(("EXC_a", "b"), 5)] } : KPState) (by rfl)
      ("EXC_a", "b") 5 (by decide) (by decide) (Or.inl (by decide))⟩

/-! ## Claim C9 -/

/-- C9 counterexample: with group `@MMK_L_A = [a]` and kerning
`{(@MMK_L_A, x): 5, (a, x): 7}`, both pairs dissolve to `(a, x)`; the later
entry overwrites the earlier one, so the class pair's value 5 is lost and
the dissolved kerning maps `(a, x)` to 7, not 5. -/
theorem c9_dissolve_cex :
    pyLookup [(("@MMK_L_A", "x"), 5), (("a", "x"), 7)] ("@MMK_L_A", "x") = some 5 ∧
    dissolvePair (singleGroupsOf [("@MMK_L_A", ["a"])]) ("@MMK_L_A", "x") = ("a", "x") ∧
    (dissolveSingleGroups [("@MMK_L_A", ["a"])]
        [(("@MMK_L_A", "x"), 5), (("a", "x"), 7)]).2 = [(("a", "x"), 7)] := by decide

/-- C9 amended: after dissolving, no group with exactly one non-RTL member
remains in the output group mapping; and provided no two distinct kerning
pairs dissolve to the same pair (collisions are resolved
last-write-wins), every pair that referenced a dissolved group now
references its sole glyph with the same value. -/
theorem c9_dissolve_amended (groups : GDict) (kerning : KDict)
    (hnd : (pyKeys kerning).Nodup)
    (hinj : ∀ p q : KPair, p ∈ pyKeys kerning → q ∈ pyKeys kerning →
      dissolvePair (singleGroupsOf groups) p = dissolvePair (singleGroupsOf groups) q →
      p = q) :
    (∀ name glyphs,
      pyLookup (dissolveSingleGroups groups kerning).1 name = some glyphs →
      ¬(glyphs.length = 1 ∧ isRTLGroup name = false)) ∧
    (∀ p v, pyLookup kerning p = some v →
      pyLookup (dissolveSingleGroups groups kerning).2
        (dissolvePair (singleGroupsOf groups) p) = some v) := by
  constructor
  · intro name glyphs hlk ⟨hlen, hrtl⟩
    by_cases hsg : singleGroupsOf groups = []
    · rw [dissolveSingleGroups] at hlk
      simp only [hsg, ne_eq, not_true_eq_false, if_false] at hlk
      have hmem := mem_of_lookup hlk
      have hpred := (List.filter_eq_nil_iff.mp hsg) (name, glyphs) hmem
      simp [hlen, hrtl] at hpred
    · rw [dissolveSingleGroups] at hlk
      simp only [hsg, ne_eq, not_false_eq_true, if_true] at hlk
      have hmem := mem_of_lookup hlk
      have hfil := List.mem_filter.mp hmem
      have hing : (name, glyphs) ∈ singleGroupsOf groups := by
        rw [singleGroupsOf, List.mem_filter]
        exact ⟨hfil.1, by simp [hlen, hrtl]⟩
      have hkey : name ∈ pyKeys (singleGroupsOf groups) := by
        simpa [pyKeys] using List.mem_map_of_mem Prod.fst hing
      rcases lookup_isSome_of_mem_keys hkey with ⟨w, hw⟩
      have := hfil.2
      simp [containsKey, hw] at this
  · intro p v hlk
    by_cases hsg : singleGroupsOf groups = []
    · rw [dissolveSingleGroups]
      simp only [hsg, ne_eq, not_true_eq_false, if_false]
      exact hlk
    · rw [dissolveSingleGroups]
      simp only [hsg, ne_eq, not_false_eq_true, if_true]
      have hmem : (p, v) ∈ kerning := mem_of_lookup hlk
      have hkeysnd : (kerning.map (fun pv => dissolvePair (singleGroupsOf groups) pv.1)).Nodup := by
        have h1 : kerning.map (fun pv => dissolvePair (singleGroupsOf groups) pv.1)
            = (pyKeys kerning).map (dissolvePair (singleGroupsOf groups)) := by
          simp [pyKeys]
        rw [h1]
        exact List.Nodup.map_on (fun x hx y hy hexy => hinj x y hx hy hexy) hnd
      rw [foldl_pyInsert_eq_map (fun pv => dissolvePair (singleGroupsOf groups) pv.1)
        Prod.snd kerning hkeysnd]
      have hmem' : (dissolvePair (singleGroupsOf groups) p, v) ∈
          kerning.map (fun pv => (dissolvePair (singleGroupsOf groups) pv.1, pv.2)) := by
        exact List.mem_map_of_mem _ hmem
      apply lookup_of_mem_nodup _ hmem'
      have h2 : pyKeys (kerning.map (fun pv => (dissolvePair (singleGroupsOf groups) pv.1, pv.2)))
          = kerning.map (fun pv => dissolvePair (singleGroupsOf groups) pv.1) := by
        simp [pyKeys]
      rw [h2]
      exact hkeysnd

/-- C9 witness: the amended dissolve correctness at group `@MMK_L_A = [a]`
with the single kerning pair `(@MMK_L_A, x): 5`. -/
theorem c9_dissolve_amended_witness :
    ((pyKeys [((("@MMK_L_A" : String), ("x" : String)), (5 : Int))]).Nodup) ∧
    (pyLookup (dissolveSingleGroups [("@MMK_L_A", ["a"])]
        [(("@MMK_L_A", "x"), 5)]).2
      (dissolvePair (singleGroupsOf [("@MMK_L_A", ["a"])]) ("@MMK_L_A", "x")) = some 5) :=
  ⟨by decide,
    (c9_dissolve_amended [("@MMK_L_A", ["a"])] [(("@MMK_L_A", "x"), 5)]
      (by decide)
      (fun p q hp hq _ => by
        rw [List.mem_singleton.mp hp, List.mem_singleton.mp hq])).2
    ("@MMK_L_A", "x") 5 (by decide)⟩

/-! ## String-order lemmas -/

theorem strLeChars_refl (s : List Char) : strLeChars s s = true := by
  induction s with
  | nil => rfl
  | cons a t ih =>
    rw [strLeChars]
    simp [Nat.lt_irrefl, ih]

theorem strLeChars_total : ∀ s t, strLeChars s t = true ∨ strLeChars t s = true := by
  intro s
  induction s with
  | nil => intro t; left; rfl
  | cons a s ih =>
    intro t
    cases t with
    | nil => right; rfl
    | cons b t' =>
      rw [strLeChars, strLeChars]
      rcases Nat.lt_trichotomy a.toNat b.toNat with h | h | h
      · left; simp [h]
      · have hab : ¬a.toNat < b.toNat := by omega
        have hba : ¬b.toNat < a.toNat := by omega
        rcases ih t' with hh | hh
        · left; simp [hab, hba, hh]
        · right; simp [hab, hba, hh]
      · right; simp [h]

theorem strLeChars_trans : ∀ s t u, strLeChars s t = true → strLeChars t u = true →
    strLeChars s u = true := by
  intro s
  induction s with
  | nil => intro t u _ _; rfl
  | cons a s ih =>
    intro t u h1 h2
    cases t with
    | nil => rw [strLeChars] at h1; exact absurd h1 (by simp)
    | cons b t' =>
      cases u with
      | nil => rw [strLeChars] at h2; exact absurd h2 (by simp)
      | cons c u' =>
        rw [strLeChars] at h1 h2 ⊢
        by_cases hab : a.toNat < b.toNat
        · by_cases hbc : b.toNat < c.toNat
          · simp [show a.toNat < c.toNat by omega]
          · by_cases hcb : c.toNat < b.toNat
            · rw [if_neg hbc, if_pos hcb] at h2; exact absurd h2 (by simp)
            · simp [show a.toNat < c.toNat by omega]
        · by_cases hba : b.toNat < a.toNat
          · rw [if_neg hab, if_pos hba] at h1; exact absurd h1 (by simp)
          · rw [if_neg hab, if_neg hba] at h1
            by_cases hbc : b.toNat < c.toNat
            · simp [show a.toNat < c.toNat by omega]
            · by_cases hcb : c.toNat < b.toNat
              · rw [if_neg hbc, if_pos hcb] at h2; exact absurd h2 (by simp)
              · rw [if_neg hbc, if_neg hcb] at h2
                rw [if_neg (show ¬a.toNat < c.toNat by omega),
                  if_neg (show ¬c.toNat < a.toNat by omega)]
                exact ih t' u' h1 h2

instance : IsTotal String (fun a b => pyStrLe a b = true) :=
  ⟨fun a b => strLeChars_total a.data b.data⟩

instance : IsTrans String (fun a b => pyStrLe a b = true) :=
  ⟨fun a b c h1 h2 => strLeChars_trans a.data b.data c.data h1 h2⟩

/-! ## Partitioner lemmas -/

theorem leftItemsOf_nodup (kd : KDict) : (leftItemsOf kd).Nodup := by
  rw [leftItemsOf, sortedSet, sortStrs]
  exact ((List.perm_insertionSort _ _).symm).nodup (List.nodup_dedup _)

theorem leftItemsOf_sorted (kd : KDict) :
    List.Pairwise (fun a b => pyStrLe a b = true) (leftItemsOf kd) := by
  rw [leftItemsOf, sortedSet, sortStrs]
  exact List.sorted_insertionSort _ _

theorem mem_leftItemsOf {kd : KDict} {p : KPair} (h : p ∈ pyKeys kd) :
    p.1 ∈ leftItemsOf kd := by
  rw [leftItemsOf, sortedSet, sortStrs]
  refine (List.perm_insertionSort _ _).mem_iff.mpr ?_
  rw [List.mem_dedup]
  exact List.mem_map_of_mem Prod.fst h

theorem partFold_join (kd : KDict) (groups : GDict) (cov : Nat) (maxSize : Int) :
    ∀ (L : List Item) (acc : PartAcc),
      ((L.foldl (partStep kd groups cov maxSize) acc).measuredSubtables).flatten ++
        (L.foldl (partStep kd groups cov maxSize) acc).subtable
      = acc.measuredSubtables.flatten ++ acc.subtable ++ L := by
  intro L
  induction L with
  | nil => intro acc; simp
  | cons i t ih =>
    intro acc
    rw [List.foldl_cons, ih]
    have hstep : (partStep kd groups cov maxSize acc i).measuredSubtables.flatten ++
        (partStep kd groups cov maxSize acc i).subtable
        = acc.measuredSubtables.flatten ++ acc.subtable ++ [i] := by
      rw [partStep]
      split
      · simp
      · simp [List.flatten_append]
    rw [hstep]
    simp

theorem measuredSubtablesOf_flatten (kd : KDict) (groups : GDict) (maxSize : Int) :
    (measuredSubtablesOf kd groups maxSize).flatten = leftItemsOf kd := by
  have h := partFold_join kd groups (2 + 2 * numberOfKernedGlyphs kd groups) maxSize
    (leftItemsOf kd) {}
  simp only [measuredSubtablesOf]
  split
  case isTrue hs =>
    rw [List.flatten_append]
    simpa using h
  case isFalse hs =>
    simp only [ne_eq, not_not] at hs
    simp only [List.append_nil]
    rw [hs, List.append_nil] at h
    simpa using h

theorem foldl_flatMap {α β γ : Type} (f : β → α → β) (l : List γ) (g : γ → List α) :
    ∀ (init : β), (l.flatMap g).foldl f init =
      l.foldl (fun acc i => (g i).foldl f acc) init := by
  induction l with
  | nil => intro init; rfl
  | cons i t ih =>
    intro init
    rw [List.flatMap_cons, List.foldl_append, List.foldl_cons, ih]

theorem flatMap_filter_nodup {l : List KPair} (hl : l.Nodup) :
    ∀ {b : List Item}, b.Nodup →
      (b.flatMap fun i => l.filter (fun p => p.1 = i)).Nodup := by
  intro b
  induction b with
  | nil => intro _; simp
  | cons i t ih =>
    intro hb
    rw [List.flatMap_cons, List.nodup_append]
    refine ⟨(List.filter_sublist l).nodup hl, ih (List.nodup_cons.mp hb).2, ?_⟩
    intro p hp1 hp2
    rcases List.mem_flatMap.mp hp2 with ⟨j, hj, hpj⟩
    have h1 : p.1 = i := by simpa using (List.mem_filter.mp hp1).2
    have h2 : p.1 = j := by simpa using (List.mem_filter.mp hpj).2
    have : i ∈ t := by rw [← h1, h2]; exact hj
    exact (List.nodup_cons.mp hb).1 this

theorem collectSubtable_eq (kd kerning : KDict) (b : List Item)
    (hnd : (pyKeys kd).Nodup) (hb : b.Nodup) :
    collectSubtable kd kerning b =
      b.flatMap (fun i => ((pyKeys kd).filter (fun p => p.1 = i)).map
        (fun p => (p, pyLookup kerning p))) := by
  rw [collectSubtable]
  rw [← foldl_flatMap (fun d p => pyInsert d p (pyLookup kerning p)) b
    (fun i => (pyKeys kd).filter (fun p => p.1 = i)) []]
  have hflat : (b.flatMap fun i => (pyKeys kd).filter (fun p => p.1 = i)).Nodup :=
    flatMap_filter_nodup hnd hb
  rw [foldl_pyInsert_eq_map (fun p => p) (fun p => pyLookup kerning p) _
    (by simpa using hflat)]
  rw [List.map_flatMap]

theorem flatMap_flatten {α β : Type} (bs : List (List α)) (g : α → List β) :
    bs.flatMap (fun b => b.flatMap g) = bs.flatten.flatMap g := by
  induction bs with
  | nil => rfl
  | cons b t ih =>
    rw [List.flatMap_cons, List.flatten_cons, List.flatMap_append, ih]

theorem msSubtables_flatten_eq (kd kerning : KDict) (groups : GDict) (maxSize : Int)
    (hnd : (pyKeys kd).Nodup) :
    (msSubtables kd kerning groups maxSize).flatten =
      (leftItemsOf kd).flatMap (fun i => ((pyKeys kd).filter (fun p => p.1 = i)).map
        (fun p => (p, pyLookup kerning p))) := by
  rw [msSubtables]
  have hjoin := measuredSubtablesOf_flatten kd groups maxSize
  have hjnd : (measuredSubtablesOf kd groups maxSize).flatten.Nodup := by
    rw [hjoin]; exact leftItemsOf_nodup kd
  have hmap : (measuredSubtablesOf kd groups maxSize).map (collectSubtable kd kerning) =
      (measuredSubtablesOf kd groups maxSize).map
        (fun b => b.flatMap (fun i => ((pyKeys kd).filter (fun p => p.1 = i)).map
          (fun p => (p, pyLookup kerning p)))) := by
    apply List.map_congr_left
    intro b hbmem
    have hbnd : b.Nodup :=
      ((List.infix_of_mem_flatten hbmem).sublist).nodup hjnd
    exact collectSubtable_eq kd kerning b hnd hbnd
  rw [hmap]
  have hfm : ∀ (bs : List (List Item)) (g : Item → List (KPair × Option Int)),
      (bs.map (fun b => b.flatMap g)).flatten = bs.flatten.flatMap g := by
    intro bs g
    rw [← flatMap_flatten]
    induction bs with
    | nil => rfl
    | cons x t ih => rw [List.map_cons, List.flatten_cons, List.flatMap_cons, ih]
  rw [hfm, hjoin]

theorem flatMap_filter_perm :
    ∀ (d : List Item), d.Nodup → ∀ (l : List KPair), (∀ x ∈ l, x.1 ∈ d) →
      (d.flatMap fun i => l.filter (fun p => p.1 = i)).Perm l := by
  intro d
  induction d with
  | nil =>
    intro _ l hcov
    cases l with
    | nil => simp
    | cons x t =>
      have := hcov x (List.mem_cons_self x t)
      simp at this
  | cons i t ih =>
    intro hnd l hcov
    rw [List.flatMap_cons]
    have hnd' := List.nodup_cons.mp hnd
    have hcong : t.flatMap (fun j => l.filter (fun p => p.1 = j)) =
        t.flatMap (fun j => (l.filter (fun p => !(p.1 = i))).filter
          (fun p => p.1 = j)) := by
      have : t.map (fun j => l.filter (fun p => p.1 = j)) =
          t.map (fun j => (l.filter (fun p => !(p.1 = i))).filter
            (fun p => p.1 = j)) := by
        apply List.map_congr_left
        intro j hj
        rw [List.filter_filter]
        apply (List.filter_congr ?_).symm
        intro p _
        have hji : ¬(j = i) := by
          intro hji
          apply hnd'.1
          rw [← hji]
          exact hj
        by_cases hpj : p.1 = j
        · simp [hpj, hji]
        · simp [hpj]
      rw [List.flatMap, List.flatMap, this]
    rw [hcong]
    have hcov' : ∀ x ∈ l.filter (fun p => !(p.1 = i)), x.1 ∈ t := by
      intro x hx
      have h1 := (List.mem_filter.mp hx).1
      have h2 : ¬(x.1 = i) := by simpa using (List.mem_filter.mp hx).2
      rcases List.mem_cons.mp (hcov x h1) with hh | hh
      · exact absurd hh h2
      · exact hh
    have hperm2 := ih hnd'.2 (l.filter (fun p => !(p.1 = i))) hcov'
    exact ((List.Perm.refl (l.filter (fun p => p.1 = i))).append hperm2).trans
      (List.filter_append_perm (fun p => p.1 = i) l)

theorem pairwise_flatMap_blocks {β : Type} (R : String → String → Prop)
    (d : List Item) (hsort : List.Pairwise R d) (hrefl : ∀ i ∈ d, R i i)
    (g : Item → List β) (key : β → String)
    (hblock : ∀ i ∈ d, ∀ e ∈ g i, key e = i) :
    List.Pairwise (fun a b => R (key a) (key b)) (d.flatMap g) := by
  induction d with
  | nil => simp
  | cons i t ih =>
    rw [List.flatMap_cons, List.pairwise_append]
    have hsort' := List.pairwise_cons.mp hsort
    refine ⟨?_, ?_, ?_⟩
    · apply List.pairwise_of_forall_mem_list
      intro a ha b hb
      rw [hblock i (List.mem_cons_self i t) a ha, hblock i (List.mem_cons_self i t) b hb]
      exact hrefl i (List.mem_cons_self i t)
    · exact ih hsort'.2 (fun j hj => hrefl j (List.mem_cons_of_mem _ hj))
        (fun j hj e he => hblock j (List.mem_cons_of_mem _ hj) e he)
    · intro a ha b hb
      rcases List.mem_flatMap.mp hb with ⟨j, hj, hbj⟩
      rw [hblock i (List.mem_cons_self i t) a ha,
        hblock j (List.mem_cons_of_mem _ hj) b hbj]
      exact hsort'.1 j hj

theorem partStep_over {kernDict : KDict} {groups : GDict} {cov : Nat} {maxSize : Int}
    {st : PartAcc} {i : Item}
    (h : ¬partFits kernDict groups cov maxSize st.acc i) :
    partStep kernDict groups cov maxSize st i =
      { measuredSubtables := st.measuredSubtables ++ [st.subtable]
        subtable := [i]
        acc := { partAbsorb kernDict groups cov st.acc i with
                   groupedGlyphsLeft := [], groupedGlyphsRight := [],
                   usedGroupsLeft := [], usedGroupsRight := [] } } := by
  rw [partStep, if_neg h]

theorem partFold_shape (kernDict : KDict) (groups : GDict) (cov : Nat) (maxSize : Int) :
    ∀ (L : List Item) (acc : PartAcc) (m : List (List Item)),
      acc.measuredSubtables = [] :: m → (∀ b ∈ m, b ≠ []) → acc.subtable ≠ [] →
      ∃ m', (L.foldl (partStep kernDict groups cov maxSize) acc).measuredSubtables
          = [] :: m' ∧
        (∀ b ∈ m', b ≠ []) ∧
        (L.foldl (partStep kernDict groups cov maxSize) acc).subtable ≠ [] := by
  intro L
  induction L with
  | nil =>
    intro acc m h1 h2 h3
    exact ⟨m, h1, h2, h3⟩
  | cons i t ih =>
    intro acc m h1 h2 h3
    rw [List.foldl_cons]
    by_cases hf : partFits kernDict groups cov maxSize acc.acc i
    · rw [partStep, if_pos hf]
      exact ih _ m h1 h2 (by simp)
    · rw [partStep_over hf]
      refine ih _ (m ++ [acc.subtable]) ?_ ?_ (by simp)
      · simp [h1]
      · intro b hb
        rcases List.mem_append.mp hb with hb | hb
        · exact h2 b hb
        · rw [List.mem_singleton.mp hb]
          exact h3

/-! ## Claim C5 -/

/-- C5: for every glyph-to-group pair `(glyph, group)` of the classifier's
`glyph_2_group` list and every member `m` of that group, if the exact pair
`(glyph, m)` exists in the `glyph_2_glyph` list, then `(glyph, m)` ends up
recorded in the glyph-to-glyph-exceptions bucket or its RTL sibling — in
both cases of the membership branch: when the glyph is not grouped on the
left the member loop inserts it; when it is, the final glyph-to-glyph pass
does. -/
theorem c5_member_override (groups : GDict) (kerning : KDict) (diss : Bool)
    (st : KPState) (hok : kernProcessor groups kerning diss = .ok st)
    (glyph G m : String) (members : List String)
    (hpair : (glyph, G) ∈ g2grList (stripFold (kpWorking groups kerning diss)).1)
    (hgrp : pyLookup (kpGroups groups kerning diss) G = some members)
    (hm : m ∈ members)
    (hgg : (glyph, m) ∈ g2gList (stripFold (kpWorking groups kerning diss)).1) :
    hasGGExc st (glyph, m) := by
  rw [kernProcessor] at hok
  rcases exc_bind_ok hok with ⟨sF, hfe, hok⟩
  have hst : hasGGExc sF (glyph, m) → hasGGExc st (glyph, m) := by
    intro hx
    split at hok
    · have := pure_ok hok; rw [this]; exact hx
    · have := pure_ok hok; rw [this]; exact hx
  apply hst
  rw [findExceptions] at hfe
  rcases exc_bind_ok hfe with ⟨sC, hC, hfe⟩
  rcases exc_bind_ok hfe with ⟨sD, hD, hfe⟩
  rcases exc_bind_ok hfe with ⟨sE, hE, hfe⟩
  rcases exFoldl_ok_mem hC hpair with ⟨l1, l2, a, b, _, ha, hstepC, htailC⟩
  have hcore_a := exFoldl_inv (P := CoreEq _)
    (fun u q u' hu hp => coreEq_trans hp (phaseCStep_core hu)) ha (coreEq_refl _)
  obtain ⟨gl, hgl_a⟩ := phaseCStep_gl hstepC
  by_cases hin : glyph ∈ gl
  · -- the glyph is grouped on the left: the final glyph-to-glyph pass
    -- classifies the exact pair as an exception.
    rcases exFoldl_ok_mem hfe hgg with ⟨f1, f2, aF, bF, _, haF, hstepF, htailF⟩
    obtain ⟨gr, hgr_aF⟩ := phaseFStep_gr hstepF
    have hcore_C := exFoldl_inv (P := CoreEq _)
      (fun u q u' hu hp => coreEq_trans hp (phaseCStep_core hu)) hC (coreEq_refl _)
    have hcore_D := exFoldl_inv (P := CoreEq _)
      (fun u q u' hu hp => coreEq_trans hp (phaseDStep_core hu)) hD (coreEq_refl _)
    have hcore_E := phaseE_core hE
    have hcore_aF := exFoldl_inv (P := CoreEq _)
      (fun u q u' hu hp => coreEq_trans hp (phaseFStep_core hu)) haF (coreEq_refl _)
    have hgl_aF : aF.grouped_left = some gl := by
      rw [hcore_aF.2.2.2.1, hcore_E.2.2.2.1, hcore_D.2.2.2.1, hcore_C.2.2.2.1,
        ← hcore_a.2.2.2.1]
      exact hgl_a
    have hexc_bF : hasGGExc bF (glyph, m) :=
      phaseFStep_establish hstepF hgl_aF hgr_aF (Or.inl hin)
    exact hasGGExc_of_mono
      (exFoldl_inv (P := GGMono bF)
        (fun u q u' hu hp => ggMono_trans hp (phaseFStep_ggmono hu)) htailF (ggMono_refl bF))
      hexc_bF
  · -- the glyph is not grouped on the left: the member loop inserts the
    -- exact pair directly.
    have hgrp_a : pyLookup a.groups G = some members := by
      rw [hcore_a.2.1]
      exact hgrp
    have hexc_b : hasGGExc b (glyph, m) :=
      phaseCStep_establish hstepC hgrp_a hm hgg hgl_a hin
    have h1 := exFoldl_inv (P := GGMono b)
      (fun u q u' hu hp => ggMono_trans hp (phaseCStep_ggmono hu)) htailC (ggMono_refl b)
    have h2 := exFoldl_inv (P := GGMono sC)
      (fun u q u' hu hp => ggMono_trans hp (phaseDStep_ggmono hu)) hD (ggMono_refl sC)
    have h3 := phaseE_ggmono hE
    have h4 := exFoldl_inv (P := GGMono sE)
      (fun u q u' hu hp => ggMono_trans hp (phaseFStep_ggmono hu)) hfe (ggMono_refl sE)
    exact hasGGExc_of_mono (ggMono_trans (ggMono_trans (ggMono_trans h1 h2) h3) h4) hexc_b

/-- C5 witness: the member-override reclassification at groups
`{@MMK_R_G: [m]}` and kerning `{(g, @MMK_R_G): 4, (g, m): 5}`. -/
theorem c5_member_override_witness :
    ((("g" : String), ("@MMK_R_G" : String)) ∈
        g2grList (stripFold (kpWorking [("@MMK_R_G", ["m"])]
          [(("g", "@MMK_R_G"), 4), (("g", "m"), 5)] false)).1 ∧
      pyLookup (kpGroups [("@MMK_R_G", ["m"])]
        [(("g", "@MMK_R_G"), 4), (("g", "m"), 5)] false) "@MMK_R_G" = some ["m"] ∧
      ("m" : String) ∈ (["m"] : List String) ∧
      (("g" : String), ("m" : String)) ∈
        g2gList (stripFold (kpWorking [("@MMK_R_G", ["m"])]
          [(("g", "@MMK_R_G"), 4), (("g", "m"), 5)] false)).1) ∧
    hasGGExc { glyph_glyph_exceptions := [(("g", "m"), 5)],
               glyph_group := [(("g", "@MMK_R_G"), 5)],
               pairs_processed := [("g", "@MMK_R_G"), ("g", "m")],
               kerning := [(("g", "@MMK_R_G"), 4), (("g", "m"), 5)],
               groups := [("@MMK_R_G", ["m"])],
               grouped_left := some [],
               grouped_right := some ["m"],
               group_order := ["@MMK_R_G"] } ("g", "m") :=
  ⟨⟨by decide, by decide, by decide, by decide⟩,
    c5_member_override [("@MMK_R_G", ["m"])]
      [(("g", "@MMK_R_G"), 4), (("g", "m"), 5)] false
      { glyph_glyph_exceptions := [(("g", "m"), 5)],
        glyph_group := [(("g", "@MMK_R_G"), 5)],
        pairs_processed := [("g", "@MMK_R_G"), ("g", "m")],
        kerning := [(("g", "@MMK_R_G"), 4), (("g", "m"), 5)],
        groups := [("@MMK_R_G", ["m"])],
        grouped_left := some [],
        grouped_right := some ["m"],
        group_order := ["@MMK_R_G"] }
      (by rfl) "g" "@MMK_R_G" "m" ["m"]
      (by decide) (by decide) (by decide) (by decide)⟩

/-! ## Claim C2 -/

/-- C2 counterexample: the partitioner does not reproduce the bucket's
pairs with *their* values: the emitted value for each pair is
`kerning.get(pair)`, not the value stored in the bucket. On the bucket
`{(g, @MMK_R_G): 5}` (which the classifier reachably produces while the
kerning mapping holds `{(g, @MMK_R_G): 0, (g, m): 5}`, via the
value-rebinding bug of the member loop), the single emitted subtable
carries the value 0, so the concatenation differs from the bucket. -/
theorem c2_partition_reconstruction_cex :
    (msSubtables ([(("g", "@MMK_R_G"), 5)] : KDict)
        ([(("g", "@MMK_R_G"), 0), (("g", "m"), 5)] : KDict)
        [("@MMK_R_G", ["m"])] 1000000).flatten
      ≠ ([(("g", "@MMK_R_G"), 5)] : KDict).map (fun pv => (pv.1, some pv.2)) := by
  decide

/-- C2 amended: for every category bucket whose keys are duplicate-free
(a dict), the concatenation of the emitted subtables' entries is a
permutation of the bucket's keys — no pair duplicated, no pair dropped —
each paired with the value looked up in the kerning mapping
(`kerning.get(pair)`, `None` when absent) rather than the bucket's stored
value, and the left items appear in non-decreasing (Python-lexicographic)
order across the sequence. -/
theorem c2_partition_reconstruction_amended (kernDict kerning : KDict) (groups : GDict)
    (maxSize : Int) (hnd : (pyKeys kernDict).Nodup) :
    ((msSubtables kernDict kerning groups maxSize).flatten).Perm
        ((pyKeys kernDict).map (fun p => (p, pyLookup kerning p))) ∧
      List.Pairwise (fun a b : KPair × Option Int => pyStrLe a.1.1 b.1.1 = true)
        ((msSubtables kernDict kerning groups maxSize).flatten) := by
  have heq := msSubtables_flatten_eq kernDict kerning groups maxSize hnd
  constructor
  · rw [heq]
    rw [show (leftItemsOf kernDict).flatMap
        (fun i => ((pyKeys kernDict).filter (fun p => p.1 = i)).map
          (fun p => (p, pyLookup kerning p)))
        = ((leftItemsOf kernDict).flatMap
            (fun i => (pyKeys kernDict).filter (fun p => p.1 = i))).map
          (fun p => (p, pyLookup kerning p)) from (List.map_flatMap _ _ _).symm]
    have hperm := flatMap_filter_perm (leftItemsOf kernDict) (leftItemsOf_nodup kernDict)
      (pyKeys kernDict) (fun x hx => mem_leftItemsOf hx)
    exact hperm.map (fun p => (p, pyLookup kerning p))
  · rw [heq]
    refine pairwise_flatMap_blocks (fun a b => pyStrLe a b = true) (leftItemsOf kernDict)
      (leftItemsOf_sorted kernDict) (fun i _ => strLeChars_refl i.data) _
      (fun e : KPair × Option Int => e.1.1) ?_
    intro i _ e he
    rcases List.mem_map.mp he with ⟨p, hp, hpe⟩
    have hfe : p.1 = i := by simpa using (List.mem_filter.mp hp).2
    rw [← hpe]
    exact hfe

/-- C2 witness: the amended reconstruction on the counterexample's input,
where the bucket value 5 disagrees with the kerning value 0 and the
emitted entry carries the looked-up 0. -/
theorem c2_partition_reconstruction_amended_witness :
    ((pyKeys ([(("g", "@MMK_R_G"), 5)] : KDict)).Nodup) ∧
    (((msSubtables ([(("g", "@MMK_R_G"), 5)] : KDict)
          ([(("g", "@MMK_R_G"), 0), (("g", "m"), 5)] : KDict)
          [("@MMK_R_G", ["m"])] 1000000).flatten).Perm
        ((pyKeys ([(("g", "@MMK_R_G"), 5)] : KDict)).map
          (fun p => (p, pyLookup ([(("g", "@MMK_R_G"), 0), (("g", "m"), 5)] : KDict) p))) ∧
      List.Pairwise (fun a b : KPair × Option Int => pyStrLe a.1.1 b.1.1 = true)
        ((msSubtables ([(("g", "@MMK_R_G"), 5)] : KDict)
          ([(("g", "@MMK_R_G"), 0), (("g", "m"), 5)] : KDict)
          [("@MMK_R_G", ["m"])] 1000000).flatten)) :=
  ⟨by decide,
    c2_partition_reconstruction_amended [(("g", "@MMK_R_G"), 5)]
      [(("g", "@MMK_R_G"), 0), (("g", "m"), 5)] [("@MMK_R_G", ["m"])] 1000000
      (by decide)⟩

/-! ## Claim C7 (amended) -/

/-- C7 amended: during partitioning, a bucket pair that is absent from the
normalized kerning mapping does not raise any error: the emitted subtable
entry for it silently carries the `None` placeholder produced by
`kerning.get(pair)`. -/
theorem c7_silent_default_amended (kernDict kerning : KDict) (groups : GDict)
    (maxSize : Int) (hnd : (pyKeys kernDict).Nodup) (p : KPair)
    (hp : p ∈ pyKeys kernDict) (habsent : pyLookup kerning p = none) :
    (p, (none : Option Int)) ∈ (msSubtables kernDict kerning groups maxSize).flatten := by
  rw [msSubtables_flatten_eq kernDict kerning groups maxSize hnd]
  apply List.mem_flatMap.mpr
  refine ⟨p.1, mem_leftItemsOf hp, ?_⟩
  have hpf : p ∈ (pyKeys kernDict).filter (fun q => q.1 = p.1) :=
    List.mem_filter.mpr ⟨hp, by simp⟩
  have hmm := List.mem_map_of_mem (fun q => (q, pyLookup kerning q)) hpf
  simpa [habsent] using hmm

/-- C7 witness: the silent placeholder at the bucket `{(a, b): 3}` with an
empty kerning mapping. -/
theorem c7_silent_default_amended_witness :
    ((pyKeys [((("a" : String), ("b" : String)), (3 : Int))]).Nodup ∧
      (("a", "b") : KPair) ∈ pyKeys [(("a", "b"), 3)] ∧
      pyLookup ([] : KDict) ("a", "b") = none) ∧
    ((("a", "b") : KPair), (none : Option Int)) ∈
      (msSubtables [(("a", "b"), 3)] [] [] 1000000).flatten :=
  ⟨⟨by decide, by decide, by decide⟩,
    c7_silent_default_amended [(("a", "b"), 3)] [] [] 1000000
      (by decide) ("a", "b") (by decide) (by decide)⟩

/-! ## Claim C6 (amended) -/

/-- C6 amended: for every non-empty bucket, when the maximum subtable size
is at or below the estimated cost of the first left item alone, the
partitioner first emits one empty subtable (the close of the initially
empty open subtable), then a non-empty subtable holding every pair of the
first left item; all later subtables are non-empty and contain no pair of
that item. -/
theorem c6_oversized_first_item_amended (kernDict kerning : KDict) (groups : GDict)
    (maxSize : Int) (hne : kernDict ≠ []) (hnd : (pyKeys kernDict).Nodup)
    (hbig : maxSize ≤ (firstItemCost kernDict groups : Int)) :
    ∃ st rest, msSubtables kernDict kerning groups maxSize = [] :: st :: rest ∧
      st ≠ [] ∧ (∀ t ∈ rest, t ≠ []) ∧
      (∀ p v, pyLookup kernDict p = some v →
        p.1 = (leftItemsOf kernDict).headD "" → (p, pyLookup kerning p) ∈ st) ∧
      (∀ t ∈ rest, ∀ e : KPair × Option Int, e ∈ t →
        e.1.1 ≠ (leftItemsOf kernDict).headD "") := by
  have hLne : leftItemsOf kernDict ≠ [] := by
    cases hk : kernDict with
    | nil => exact absurd hk hne
    | cons x t =>
      intro h0
      have hx : x.1 ∈ pyKeys kernDict := by
        rw [hk, keys_cons]
        exact List.mem_cons_self _ _
      have hxl := mem_leftItemsOf hx
      rw [hk, h0] at hxl
      exact absurd hxl (List.not_mem_nil _)
  obtain ⟨i0, items, hL⟩ := List.exists_cons_of_ne_nil hLne
  have hhead : (leftItemsOf kernDict).headD "" = i0 := by rw [hL]; rfl
  have hfc : firstItemCost kernDict groups =
      (partAbsorb kernDict groups (2 + 2 * numberOfKernedGlyphs kernDict groups)
        {} i0).subtableMetadataSize +
      (partAbsorb kernDict groups (2 + 2 * numberOfKernedGlyphs kernDict groups)
        {} i0).subtable_size := by
    rw [firstItemCost, hhead]
  have hfit : ¬partFits kernDict groups
      (2 + 2 * numberOfKernedGlyphs kernDict groups) maxSize ({} : PartAcc).acc i0 := by
    rw [hfc] at hbig
    exact not_lt.mpr hbig
  have hfold := partFold_shape kernDict groups
    (2 + 2 * numberOfKernedGlyphs kernDict groups) maxSize items
    (partStep kernDict groups (2 + 2 * numberOfKernedGlyphs kernDict groups) maxSize
      {} i0) []
    (by rw [partStep_over hfit]; rfl) (by intro b hb; exact absurd hb (List.not_mem_nil _))
    (by rw [partStep_over hfit]; simp)
  obtain ⟨m2, hm1, hm2, hm3⟩ := hfold
  have hms : measuredSubtablesOf kernDict groups maxSize
      = ([] : List Item) :: (m2 ++
          [(items.foldl (partStep kernDict groups
            (2 + 2 * numberOfKernedGlyphs kernDict groups) maxSize)
            (partStep kernDict groups
              (2 + 2 * numberOfKernedGlyphs kernDict groups) maxSize
              {} i0)).subtable]) := by
    simp only [measuredSubtablesOf]
    rw [hL, List.foldl_cons, hm1, if_pos hm3]
    rfl
  have hBflat : (m2 ++
      [(items.foldl (partStep kernDict groups
        (2 + 2 * numberOfKernedGlyphs kernDict groups) maxSize)
        (partStep kernDict groups
          (2 + 2 * numberOfKernedGlyphs kernDict groups) maxSize
          {} i0)).subtable]).flatten = leftItemsOf kernDict := by
    have h0 := measuredSubtablesOf_flatten kernDict groups maxSize
    rw [hms, List.flatten_cons, List.nil_append] at h0
    exact h0
  have hBne : (m2 ++
      [(items.foldl (partStep kernDict groups
        (2 + 2 * numberOfKernedGlyphs kernDict groups) maxSize)
        (partStep kernDict groups
          (2 + 2 * numberOfKernedGlyphs kernDict groups) maxSize
          {} i0)).subtable]) ≠ [] := by simp
  obtain ⟨b1, brest, hB⟩ := List.exists_cons_of_ne_nil hBne
  have hBblocksne : ∀ b ∈ b1 :: brest, b ≠ [] := by
    rw [← hB]
    intro b hb
    rcases List.mem_append.mp hb with hbb | hbb
    · exact hm2 b hbb
    · rw [List.mem_singleton.mp hbb]
      exact hm3
  have hflatB : (b1 :: brest).flatten = i0 :: items := by
    rw [← hB, hBflat, hL]
  have hBnodup : (b1 :: brest).flatten.Nodup := by
    rw [hflatB, ← hL]
    exact leftItemsOf_nodup kernDict
  have hb1ne : b1 ≠ [] := hBblocksne b1 (List.mem_cons_self _ _)
  obtain ⟨c, b1t, hb1⟩ := List.exists_cons_of_ne_nil hb1ne
  have hc : c = i0 := by
    have h0 := hflatB
    rw [hb1, List.flatten_cons, List.cons_append] at h0
    exact (List.cons_eq_cons.mp h0).1
  rw [hc] at hb1
  have hmemflat : ∀ j, j ∈ (b1 :: brest).flatten → j ∈ leftItemsOf kernDict := by
    intro j hj
    rw [hflatB, ← hL] at hj
    exact hj
  have hfilter_ne : ∀ j, j ∈ leftItemsOf kernDict →
      ((pyKeys kernDict).filter (fun p => p.1 = j)) ≠ [] := by
    intro j hj
    have hjm : j ∈ (pyKeys kernDict).map Prod.fst := by
      rw [leftItemsOf, sortedSet, sortStrs] at hj
      exact List.mem_dedup.mp ((List.perm_insertionSort _ _).mem_iff.mp hj)
    rcases List.mem_map.mp hjm with ⟨p, hp, hpj⟩
    intro hnil
    have hmm : p ∈ (pyKeys kernDict).filter (fun q => q.1 = j) :=
      List.mem_filter.mpr ⟨hp, by simp [hpj]⟩
    rw [hnil] at hmm
    exact absurd hmm (List.not_mem_nil _)
  have hblocknodup : ∀ b ∈ b1 :: brest, b.Nodup := by
    intro b hb
    exact ((List.infix_of_mem_flatten hb).sublist).nodup hBnodup
  have hcollect_ne : ∀ b ∈ b1 :: brest, collectSubtable kernDict kerning b ≠ [] := by
    intro b hb
    obtain ⟨j, bt, hbj⟩ := List.exists_cons_of_ne_nil (hBblocksne b hb)
    rw [collectSubtable_eq kernDict kerning b hnd (hblocknodup b hb), hbj,
      List.flatMap_cons]
    intro h0
    rcases List.append_eq_nil.mp h0 with ⟨h1, _⟩
    have hjmem : j ∈ leftItemsOf kernDict := by
      apply hmemflat
      apply List.mem_flatten.mpr
      exact ⟨b, hb, by rw [hbj]; exact List.mem_cons_self _ _⟩
    exact hfilter_ne j hjmem (by simpa using h1)
  refine ⟨collectSubtable kernDict kerning b1,
    brest.map (collectSubtable kernDict kerning), ?_, ?_, ?_, ?_, ?_⟩
  · rw [msSubtables, hms, hB]
    rfl
  · exact hcollect_ne b1 (List.mem_cons_self _ _)
  · intro t ht
    rcases List.mem_map.mp ht with ⟨bj, hbj, hbjt⟩
    rw [← hbjt]
    exact hcollect_ne bj (List.mem_cons_of_mem _ hbj)
  · intro p v hlkp hp1
    rw [hhead] at hp1
    rw [collectSubtable_eq kernDict kerning b1 hnd
      (hblocknodup b1 (List.mem_cons_self _ _))]
    apply List.mem_flatMap.mpr
    refine ⟨i0, by rw [hb1]; exact List.mem_cons_self _ _, ?_⟩
    have hpf : p ∈ (pyKeys kernDict).filter (fun q => q.1 = i0) :=
      List.mem_filter.mpr ⟨mem_keys_of_lookup hlkp, by simp [hp1]⟩
    exact List.mem_map_of_mem (fun q => (q, pyLookup kerning q)) hpf
  · intro t ht e het
    rcases List.mem_map.mp ht with ⟨bj, hbj, hbjt⟩
    rw [← hbjt, collectSubtable_eq kernDict kerning bj hnd
      (hblocknodup bj (List.mem_cons_of_mem _ hbj))] at het
    rcases List.mem_flatMap.mp het with ⟨j, hjbj, hej⟩
    rcases List.mem_map.mp hej with ⟨p, hpf, hpe⟩
    have hjne : j ≠ i0 := by
      have hdisj := (List.nodup_append.mp (by
        rw [← List.flatten_cons]
        exact hBnodup : (b1 ++ brest.flatten).Nodup)).2.2
      intro hji
      have hi0b1 : i0 ∈ b1 := by rw [hb1]; exact List.mem_cons_self _ _
      have hjflat : j ∈ brest.flatten := List.mem_flatten.mpr ⟨bj, hbj, hjbj⟩
      rw [hji] at hjflat
      exact hdisj hi0b1 hjflat
    rw [hhead, ← hpe]
    have hpj : p.1 = j := by simpa using (List.mem_filter.mp hpf).2
    simpa [hpj] using hjne

/-- C6 witness: the amended oversized-first-item behaviour on the bucket
`{(a, b): 5}` with `maxSize` 0, below the first item's estimated cost. -/
theorem c6_oversized_first_item_amended_witness :
    (([(("a", "b"), 5)] : KDict) ≠ [] ∧
      (pyKeys ([(("a", "b"), 5)] : KDict)).Nodup ∧
      (0 : Int) ≤ ((firstItemCost ([(("a", "b"), 5)] : KDict) [] : Nat) : Int)) ∧
    (∃ st rest, msSubtables ([(("a", "b"), 5)] : KDict) ([(("a", "b"), 5)] : KDict) [] 0
        = [] :: st :: rest ∧
      st ≠ [] ∧ (∀ t ∈ rest, t ≠ []) ∧
      (∀ (p : KPair) (v : Int),
        pyLookup ([(("a", "b"), 5)] : KDict) p = some v →
        p.1 = (leftItemsOf ([(("a", "b"), 5)] : KDict)).headD "" →
        (p, pyLookup ([(("a", "b"), 5)] : KDict) p) ∈ st) ∧
      (∀ t ∈ rest, ∀ e : KPair × Option Int, e ∈ t →
        e.1.1 ≠ (leftItemsOf ([(("a", "b"), 5)] : KDict)).headD "")) :=
  ⟨⟨by decide, by decide, by decide⟩,
    c6_oversized_first_item_amended [(("a", "b"), 5)] [(("a", "b"), 5)] [] 0
      (by decide) (by decide) (by decide)⟩

end KFW
